import Mathlib

/-!
Shallow embedding of the resumable batch upload pipeline of the metaplex
candy-machine CLI (three source files):

* helpers/upload/arweave-bundle.ts — size-bounded batch planner
  (getBatchRange), two-phase bundle uploader (arweaveBundleUpload).
* the newer pipeline revision (getItemsNeedingUpload, writeIndices,
  saveManifestsWithLink, upload).
* commands/upload.ts — count-bounded pipeline (upload, upload_one_item).

File reads, network uploads and registry RPCs are modelled as explicit
oracle parameters; the JS object holding cache items is modelled as an
insertion-ordered association list.
-/

namespace Metaplex

/-- A cache entry: `{ link, name, onChain }`.  `link`/`name` are absent
(`none`) until an upload records them, mirroring missing JS fields. -/
structure CacheEntry where
  link : Option String
  name : Option String
  onChain : Bool
deriving DecidableEq, Repr

/-- The `cache.program` object: `uuid` and `config` are absent until the
registry (candy-machine config) is initialised. -/
structure CacheProgram where
  uuid : Option String
  config : Option String
deriving DecidableEq, Repr

/-- The persisted cache: program handle, items map (insertion-ordered
association list standing for the JS object) and authority. -/
structure Cache where
  program : CacheProgram
  items : List (String × CacheEntry)
  authority : Option String
deriving DecidableEq, Repr

/-- Lookup of `cache.items[key]` (first binding wins, as JS keys are unique). -/
def lookupItem : List (String × CacheEntry) → String → Option CacheEntry
  | [], _ => none
  | (k, e) :: rest, key => if k = key then some e else lookupItem rest key

/-- Assignment `cache.items[key] = e`: update in place when present,
append otherwise (JS object insertion order). -/
def setItem : List (String × CacheEntry) → String → CacheEntry → List (String × CacheEntry)
  | [], key, e => [(key, e)]
  | (k, e₀) :: rest, key, e =>
    if k = key then (k, e) :: rest else (k, e₀) :: setItem rest key e

/-- JS truthiness of a possibly-absent link string (`!link`). -/
def linkTruthy : Option String → Bool
  | none => false
  | some s => !(s == "")

/-- Split a character list at a separator character (kernel-reducible
analogue of `split`). -/
def splitOnCharAux (c : Char) : List Char → List Char → List (List Char)
  | [], acc => [acc.reverse]
  | x :: xs, acc =>
    if x = c then acc.reverse :: splitOnCharAux c xs []
    else splitOnCharAux c xs (x :: acc)

/-- Split a character list at every occurrence of `c`. -/
def splitOnChar (c : Char) (s : List Char) : List (List Char) := splitOnCharAux c s []

/-- Remove the first occurrence of `pat` from the list — the effect of
JS `.replace(pat, '')`, which replaces only the first occurrence. -/
def stripFirst (pat : List Char) : List Char → List Char
  | [] => []
  | x :: xs =>
    if pat.isPrefixOf (x :: xs) then xs.drop (pat.length - 1)
    else x :: stripFirst pat xs

/-- JS `s.replace(pat, '')`. -/
def replaceOnce (s pat : String) : String := String.mk (stripFirst pat.toList s.toList)

/-- Last path component, `path.basename` / `split('/').pop()`. -/
def lastComponent (f : String) : String :=
  String.mk (((splitOnChar '/' f.toList).getLast?).getD f.toList)

/-- `path.basename(image).replace(EXTENSION_PNG, '')` — the cache index of
an image file in the count-bounded pipeline. -/
def fileStem (f : String) : String := replaceOnce (lastComponent f) ".png"

/-- Drop the extension of a file name, as `path.extname` computes it. -/
def dropExt (s : String) : String :=
  let parts := splitOnChar '.' s.toList
  if parts.length ≤ 1 then s else String.mk (List.intercalate ['.'] parts.dropLast)

/-- `path.basename(filePath, path.extname(filePath))` — the cache index of
a file in the newer pipeline's item selector. -/
def fileStemAnyExt (f : String) : String := dropExt (lastComponent f)

/-- `path.extname(val) === EXTENSION_PNG`. -/
def hasPngExt (v : String) : Bool := List.isSuffixOf ".png".toList v.toList

/-! ### Size-bounded batch planner (arweave-bundle.ts) -/

/-- `BATCH_SIZE_LIMIT` — cumulated image size ceiling of one bundle. -/
def BATCH_SIZE_LIMIT : Nat := 50 * 1000 * 1000

/-- Loop body of `getBatchRange`: walks the pending items accumulating
`total`, stops right before the total would meet/exceed the ceiling, and
errors when the very first item alone does so.  `fsize` is the
`fs.statSync(path.join(dirname, item + ".png")).size` oracle. -/
def getBatchRangeGo (fsize : String → Nat) : List String → Nat → Nat → Except String Nat
  | [], _, range => .ok range
  | x :: xs, total, range =>
    if BATCH_SIZE_LIMIT ≤ total + fsize x then
      if range = 0 then .error "Item too big for arBundles size limit of 50000000."
      else .ok range
    else getBatchRangeGo fsize xs (total + fsize x) (range + 1)

/-- `getBatchRange(dirname, items)`. -/
def getBatchRange (fsize : String → Nat) (items : List String) : Except String Nat :=
  getBatchRangeGo fsize items 0 0

/-- The `while (items.length) { batches.push(items.splice(0, getBatchRange(...))) }`
planning loop of `arweaveBundleUpload`, with fuel for structural recursion
(the wrapper passes `items.length`, which is always enough because a
successful range on a non-empty list is at least 1). -/
def planBatchesAux (fsize : String → Nat) : Nat → List String → Except String (List (List String))
  | _, [] => .ok []
  | 0, _ :: _ => .error "out of fuel"
  | fuel + 1, x :: xs =>
    match getBatchRange fsize (x :: xs) with
    | .error e => .error e
    | .ok range =>
      match planBatchesAux fsize fuel ((x :: xs).drop range) with
      | .error e => .error e
      | .ok bs => .ok ((x :: xs).take range :: bs)

/-- The batch plan of `arweaveBundleUpload`. -/
def planBatches (fsize : String → Nat) (items : List String) :
    Except String (List (List String)) :=
  planBatchesAux fsize items.length items

/-- Cumulative raw image byte size of a batch. -/
def sumSizes (fsize : String → Nat) (b : List String) : Nat := (b.map fsize).sum

/-- The byte sizes of the spec's batching example: 30MB, 30MB, 10MB. -/
def sizesExample : String → Nat :=
  fun s => if s = "item0" then 30000000 else if s = "item1" then 30000000 else 10000000

/-! ### Shared helpers -/

/-- Modelled from the spec: the `chunks` helper of `helpers/various.ts`
(not under `src/`), which partitions a list into consecutive chunks of the
given size; the registry committer uses it for its outer 1000-chunks, and
the inner `slice(offset, offset + 10)` loop is the same chunking with
size 10.  Written with an accumulator so it is structural. -/
def chunksAux (n : Nat) : List α → List α → List (List α)
  | [], acc => if acc.isEmpty then [] else [acc.reverse]
  | x :: xs, acc =>
    let acc' := x :: acc
    if acc'.length = n then acc'.reverse :: chunksAux n xs [] else chunksAux n xs acc'

/-- Partition a list into consecutive chunks of size `n`. -/
def chunks (n : Nat) (l : List α) : List (List α) := chunksAux n l []

/-- Order-preserving deduplication keeping first occurrences — the
behaviour of `[...new Set([...])]` in JS. -/
def firstDedupGo : List String → List String → List String
  | _, [] => []
  | seen, x :: xs =>
    if x ∈ seen then firstDedupGo seen xs else x :: firstDedupGo (x :: seen) xs

/-- `[...new Set(l)]`. -/
def firstDedup (l : List String) : List String := firstDedupGo [] l

/-! ### Manifests -/

/-- A creator entry of a manifest. -/
structure Creator where
  address : String
  share : Nat
deriving DecidableEq, Repr

/-- An entry of `manifest.properties.files`. -/
structure FileRef where
  uri : String
  type : String
deriving DecidableEq, Repr

/-- The parts of an item's JSON manifest that the pipeline reads or
patches. -/
structure Manifest where
  name : String
  symbol : String
  seller_fee_basis_points : Nat
  creators : List Creator
  image : String
  files : List FileRef
deriving DecidableEq, Repr

/-! ### Two-phase bundle uploader (arweave-bundle.ts) -/

/-- The two phases of a bundle batch. -/
inductive Phase
  | image
  | manifest
deriving DecidableEq, Repr

/-- A transaction id turned into a content link, as `uploadBatchBundle`
builds it from `bundle.getIds()`. -/
def bundleLink (txId : String) : String := "https://arweave.net/" ++ txId

/-- `getUpdatedManifests(batch, dirname, imageLinks)`: read each item's
manifest and patch `image` and `properties.files` with the item's image
link.  `readMan` is the `JSON.parse(fs.readFileSync(...))` oracle. -/
def getUpdatedManifests (readMan : String → Manifest) (batch : List String)
    (imageLinks : List String) : List Manifest :=
  batch.enum.map (fun p =>
    let m := readMan p.2
    let link := (imageLinks[p.1]?).getD ""
    { m with image := link, files := [{ uri := link, type := "image/png" }] })

/-- One batch of `arweaveBundleUpload`'s `Promise.all`: the image bundle
upload, then the manifest bundle upload, each a call to the network
oracle `net` (standing for `uploadBatchBundle`, which returns one
transaction id per data item).  The second component is the trace of
network calls made. -/
def runBatch (net : Phase → List String → Except String (List String))
    (readMan : String → Manifest) (batch : List String) :
    Except String (List Manifest × List String × List String) × List (Phase × List String) :=
  match net Phase.image batch with
  | .error e => (.error e, [(Phase.image, batch)])
  | .ok txIds =>
    let imageLinks := txIds.map bundleLink
    let updated := getUpdatedManifests readMan batch imageLinks
    match net Phase.manifest batch with
    | .error e => (.error e, [(Phase.image, batch), (Phase.manifest, batch)])
    | .ok txIds2 =>
      (.ok (updated, txIds2.map bundleLink, batch.map fileStem),
       [(Phase.image, batch), (Phase.manifest, batch)])

/-- `Promise.all` over per-batch results: every batch runs, and the
aggregate fails as soon as any batch failed. -/
def seqExcept : List (Except String α) → Except String (List α)
  | [] => .ok []
  | .error e :: _ => .error e
  | .ok x :: rest => (seqExcept rest).map (x :: ·)

/-- `arweaveBundleUpload(dirname, items, jwk)`: plan all batches first
(the `while` loop), then run every batch.  Returns the per-batch triples
`[updatedManifests, manifestLinks, indices]` and the trace of network
calls; note that a planning failure performs no network call at all. -/
def arweaveBundleUpload (net : Phase → List String → Except String (List String))
    (readMan : String → Manifest) (fsize : String → Nat) (items : List String) :
    Except String (List (List Manifest × List String × List String)) × List (Phase × List String) :=
  match planBatches fsize items with
  | .error e => (.error e, [])
  | .ok bs =>
    let results := bs.map (runBatch net readMan)
    (seqExcept (results.map Prod.fst), (results.map Prod.snd).flatten)

/-! ### Newer pipeline revision (item selector, cache writes, registry) -/

/-- `getItemsNeedingUpload(items, files)`: union of cache keys and file
stems in first-seen order, filtered to indices whose entry has no link. -/
def getItemsNeedingUpload (items : List (String × CacheEntry)) (files : List String) :
    List String :=
  let all := firstDedup (items.map Prod.fst ++ files.map fileStemAnyExt)
  all.filter (fun idx => ! linkTruthy ((lookupItem items idx).bind (·.link)))

/-- One step of `saveManifestsWithLink`'s `forEach`: store the idx-th
manifest's entry under its index with its link, `onChain: false`. -/
def saveManifestStep (links indices : List String) (acc : Cache) (p : Nat × Manifest) : Cache :=
  { acc with
      items := setItem acc.items ((indices[p.1]?).getD "undefined")
        ({ link := links[p.1]?, name := some p.2.name, onChain := false }) }

/-- `saveManifestsWithLink(cache, manifests, links, indices)`: record each
uploaded manifest's link and name under its index, `onChain: false`. -/
def saveManifestsWithLink (cache : Cache) (manifests : List Manifest)
    (links indices : List String) : Cache :=
  manifests.enum.foldl (saveManifestStep links indices) cache

/-- `keys[i]` of the registry committer (`keys = Object.keys(cache.items)`). -/
def keyAt (keys : List String) (i : Nat) : String := (keys[i]?).getD ""

/-- `cache.items[keys[i]]?.onChain || false`. -/
def onChainAt (c : Cache) (keys : List String) (i : Nat) : Bool :=
  match lookupItem c.items (keyAt keys i) with
  | some e => e.onChain
  | none => false

/-- `cache.items[keys[i]] = { ...cache.items[keys[i]], onChain: true }`. -/
def markOnChain (c : Cache) (k : String) : Cache :=
  match lookupItem c.items k with
  | some e => { c with items := setItem c.items k { e with onChain := true } }
  | none => { c with items := setItem c.items k { link := none, name := none, onChain := true } }

/-- One inner group of 10 of the registry committer: skip when every
member is already on chain (the `onChain.length != indexes.length` check:
the filter has full length exactly when all members pass), otherwise
issue one `addConfigLines` write keyed by the group's first index; on
success mark every member on chain, on failure leave the cache alone.
Returns the updated cache and the issued call (ind, success), if any. -/
def processGroup (rpc : String → Bool) (keys : List String) (c : Cache) (g : List Nat) :
    Cache × Option (String × Bool) :=
  if g.all (onChainAt c keys) then (c, none)
  else
    let ind := keyAt keys (g.headD 0)
    if rpc ind then
      (g.foldl (fun acc i => markOnChain acc (keyAt keys i)) c, some (ind, true))
    else (c, some (ind, false))

/-- Positions `0..n-1` chunked into outer slices of 1000 and inner groups
of 10, as `writeIndices` iterates them. -/
def innerGroups (n : Nat) : List (List Nat) :=
  ((chunks 1000 (List.range n)).map (chunks 10)).flatten

/-- One step of the registry commit fold: run a group and append its
issued call, if any, to the call list. -/
def registryStep (rpc : String → Bool) (keys : List String)
    (acc : Cache × List (String × Bool)) (g : List Nat) : Cache × List (String × Bool) :=
  let step := processGroup rpc keys acc.1 g
  (step.1, acc.2 ++ step.2.toList)

/-- The registry commit phase (`writeIndices` of the newer revision and
the inlined equivalent of `commands/upload.ts`): `keys` is fixed up
front, groups run over it, and each group's write is independent; the
groups touch pairwise disjoint key positions, so the concurrent
`Promise.all` over outer chunks is modelled as a sequential fold.
Returns the final cache and the list of issued calls `(ind, success)`. -/
def registryPhase (rpc : String → Bool) (c : Cache) : Cache × List (String × Bool) :=
  let keys := c.items.map Prod.fst
  (innerGroups keys.length).foldl (registryStep rpc keys) (c, [])

/-- Storage backends of the newer pipeline revision. -/
inductive P0Storage
  | arweaveNative
  | ipfs
  | aws
  | arweave
deriving DecidableEq, Repr

/-- Observable side effects of a run of the newer pipeline: bundle
network calls, simple-path per-item upload calls, registry write calls. -/
structure P0Trace where
  netCalls : List (Phase × List String)
  uploadCalls : List String
  rpcCalls : List (String × Bool)
deriving DecidableEq, Repr

/-- The simple-backend loop of the newer revision: uploads each pending
item in order; a rejection is not caught, so it aborts the run.  (This
revision discards the returned links.)  Also returns the upload calls
made. -/
def simpleLoop (upl : String → Except String Unit) :
    List String → Except String Unit × List String
  | [] => (.ok (), [])
  | t :: ts =>
    match upl t with
    | .error e => (.error e, [t])
    | .ok _ =>
      let rest := simpleLoop upl ts
      (rest.1, t :: rest.2)

/-- The newer pipeline revision's `upload`: select pending items, upload
them (bundle path or simple path), then ensure the registry handle exists
(`initConfig`, whose failure is rethrown) and run the registry commit
phase.  `.error` means the run rejected; the durable cache then stays at
its last persisted state, since `saveCache` is only reached on success. -/
def uploadP0 (storage : P0Storage)
    (net : Phase → List String → Except String (List String))
    (uplSimple : String → Except String Unit)
    (readMan : String → Manifest)
    (fsize : String → Nat)
    (initC : Except String (String × String))
    (rpc : String → Bool)
    (files : List String) (c₀ : Cache) : Except String Cache × P0Trace :=
  let needUpload := getItemsNeedingUpload c₀.items files
  let phase1 : Except String Cache × P0Trace :=
    if needUpload.isEmpty then (.ok c₀, ⟨[], [], []⟩)
    else
      match storage with
      | .arweaveNative =>
        let bu := arweaveBundleUpload net readMan fsize needUpload
        match bu.1 with
        | .error e => (.error e, ⟨bu.2, [], []⟩)
        | .ok triples =>
          let updatedManifests := (triples.map (fun t => t.1)).flatten
          let manifestLinks := (triples.map (fun t => t.2.1)).flatten
          let indices := (triples.map (fun t => t.2.2)).flatten
          (.ok (saveManifestsWithLink c₀ updatedManifests manifestLinks indices),
           ⟨bu.2, [], []⟩)
      | _ =>
        let res := simpleLoop uplSimple needUpload
        match res.1 with
        | .error e => (.error e, ⟨[], res.2, []⟩)
        | .ok _ => (.ok c₀, ⟨[], res.2, []⟩)
  match phase1.1 with
  | .error e => (.error e, phase1.2)
  | .ok c₁ =>
    let c₂res : Except String Cache :=
      match c₁.program.config with
      | some _ => .ok c₁
      | none =>
        match initC with
        | .error e => .error e
        | .ok p => .ok { c₁ with program := { uuid := some p.1, config := some p.2 } }
    match c₂res with
    | .error e => (.error e, phase1.2)
    | .ok c₂ =>
      let reg := registryPhase rpc c₂
      (.ok reg.1, { phase1.2 with rpcCalls := reg.2 })

/-! ### Count-bounded pipeline (commands/upload.ts) -/

/-- The storage backends of `commands/upload.ts` and their window sizes
(`BATCH_SIZE = { arweave: 5, ipfs: 1, aws: 1 }`). -/
inductive CStorage
  | arweave
  | ipfs
  | aws
deriving DecidableEq, Repr

/-- `BATCH_SIZE[storage]`. -/
def BATCH_SIZE : CStorage → Nat
  | .arweave => 5
  | .ipfs => 1
  | .aws => 1

/-- The `seen` key of a file: `f.replace(EXTENSION_PNG, '').split('/').pop()`. -/
def seenKey (f : String) : String := lastComponent (replaceOnce f ".png")

/-- First dedup pass of `upload`: keep each file whose stem was not seen,
threading the `seen` set. -/
def newFilesGo : List String → List String → List String × List String
  | [], seen => ([], seen)
  | f :: fs, seen =>
    if seenKey f ∈ seen then newFilesGo fs seen
    else
      let rest := newFilesGo fs (seenKey f :: seen)
      (f :: rest.1, rest.2)

/-- Second pass: unseen cache keys are re-added as `key + '.png'`. -/
def cacheFilesGo : List String → List String → List String
  | [], _ => []
  | k :: ks, seen =>
    if k ∈ seen then cacheFilesGo ks seen else (k ++ ".png") :: cacheFilesGo ks (k :: seen)

/-- `images`: the deduplicated file list (new files first, then cache
keys), filtered to `.png` paths (`path.extname(val) === EXTENSION_PNG`). -/
def computeImages (files existingInCache : List String) : List String :=
  let nf := newFilesGo files []
  let all := nf.1 ++ cacheFilesGo existingInCache nf.2
  all.filter (fun v => hasPngExt v)

/-- `upload_one_item`: skip entirely when the item has a truthy cached
link and the registry uuid exists; otherwise read the manifest, run the
one-time registry initialisation at `i = 0` when the uuid is missing
(rethrowing its failure), and, when there is no cached link, upload the
item through the storage oracle `upl`.  A successful truthy link is
recorded in the cache with `onChain: false` (and the authority set); an
upload failure is caught and recorded by returning `false`.  The second
component is the list of storage upload calls made. -/
def upload_one_item (upl : String → Except String String)
    (initC : Except String (String × String)) (wallet : String)
    (readMan : String → Manifest) (image : String) (i : Nat) (c : Cache) :
    Except String (Bool × Cache) × List String :=
  let index := fileStem image
  let link := (lookupItem c.items index).bind (·.link)
  if linkTruthy link && c.program.uuid.isSome then (.ok (true, c), [])
  else
    let manifest := readMan index
    let cInit : Except String Cache :=
      if i = 0 && c.program.uuid.isNone then
        match initC with
        | .error e => .error e
        | .ok p => .ok { c with program := { uuid := some p.1, config := some p.2 } }
      else .ok c
    match cInit with
    | .error e => (.error e, [])
    | .ok c₁ =>
      if linkTruthy link then (.ok (true, c₁), [])
      else
        match upl index with
        | .error _ => (.ok (false, c₁), [index])
        | .ok l =>
          if l == "" then (.ok (true, c₁), [index])
          else
            (.ok (true,
              { c₁ with
                items := setItem c₁.items index
                  { link := some l, name := some manifest.name, onChain := false },
                authority := some wallet }), [index])

/-- One window of the upload `while` loop: run `upload_one_item` for each
indexed image, collecting the per-item success flags.  An exception
(registry init failure) aborts the run. -/
def itemsWindow (upl : String → Except String String)
    (initC : Except String (String × String)) (wallet : String)
    (readMan : String → Manifest) :
    List (Nat × String) → Cache → Except String (List Bool × Cache) × List String
  | [], c => (.ok ([], c), [])
  | (i, img) :: rest, c =>
    let step := upload_one_item upl initC wallet readMan img i c
    match step.1 with
    | .error e => (.error e, step.2)
    | .ok (b, c') =>
      let restRes := itemsWindow upl initC wallet readMan rest c'
      match restRes.1 with
      | .error e => (.error e, step.2 ++ restRes.2)
      | .ok (bs, c'') => (.ok (b :: bs, c''), step.2 ++ restRes.2)

/-- The `while (currentBatchStartIndex < SIZE)` loop over windows of
`BATCH_SIZE[storage]` items:
`uploadSuccessful = (await Promise.all(promises)).every(x => x) && uploadSuccessful`. -/
def windowsLoop (upl : String → Except String String)
    (initC : Except String (String × String)) (wallet : String)
    (readMan : String → Manifest) :
    List (List (Nat × String)) → Bool → Cache → Except String (Bool × Cache) × List String
  | [], flag, c => (.ok (flag, c), [])
  | w :: ws, flag, c =>
    let step := itemsWindow upl initC wallet readMan w c
    match step.1 with
    | .error e => (.error e, step.2)
    | .ok (bs, c') =>
      let flag' := bs.all id && flag
      let restRes := windowsLoop upl initC wallet readMan ws flag' c'
      (restRes.1, step.2 ++ restRes.2)

/-- Observable side effects of a run of the count-bounded pipeline. -/
structure CmdTrace where
  uploadAttempts : List String
  rpcCalls : List (String × Bool)
deriving DecidableEq, Repr

/-- `upload` of `commands/upload.ts`: dedup the file list against the
cache, upload in windows of `BATCH_SIZE[storage]`, then run the registry
commit phase, clearing the success flag on any group failure, and return
the aggregate flag with the final cache. -/
def uploadCmd (storage : CStorage) (upl : String → Except String String)
    (initC : Except String (String × String)) (rpc : String → Bool)
    (readMan : String → Manifest) (wallet : String)
    (files : List String) (c₀ : Cache) :
    Except String (Bool × Cache) × CmdTrace :=
  let existingInCache := c₀.items.map Prod.fst
  let images := computeImages files existingInCache
  let windows := chunks (BATCH_SIZE storage) images.enum
  let loopRes := windowsLoop upl initC wallet readMan windows true c₀
  match loopRes.1 with
  | .error e => (.error e, ⟨loopRes.2, []⟩)
  | .ok (flag1, c₁) =>
    let reg := registryPhase rpc c₁
    let flag2 := flag1 && reg.2.all (fun p => p.2)
    (.ok (flag2, reg.1), ⟨loopRes.2, reg.2⟩)

/-! ### Invariants and helpers for the claims -/

/-- The spec's cache invariant: every entry with `onChain = true` has a
present, non-empty link. -/
def cacheInv (c : Cache) : Prop :=
  ∀ p ∈ c.items, p.2.onChain = true → linkTruthy p.2.link = true

/-- Every entry of the cache carries a present, non-empty link — true of
every cache this pipeline itself persists, since entries are only created
together with a truthy link. -/
def cacheLinksWF (c : Cache) : Prop :=
  ∀ p ∈ c.items, linkTruthy p.2.link = true

/-- Append/update-only: no key of `c` is lost in `c'`. -/
def keysPreserved (c c' : Cache) : Prop :=
  ∀ k ∈ c.items.map Prod.fst, k ∈ c'.items.map Prod.fst

/-- Whether an `Except` result is a success. -/
def exceptOkB : Except String α → Bool
  | .ok _ => true
  | .error _ => false

/-- The durable cache after a run: the result cache on success, the
previously persisted cache when the run rejected before saving. -/
def durableOf (r : Except String Cache) (c₀ : Cache) : Cache :=
  match r with
  | .ok c => c
  | .error _ => c₀

/-- A 25-item cache whose first 10 entries are already on chain — the
registry-idempotence example of the spec. -/
def cache25 : Cache :=
  { program := ⟨some "uuid", some "cfg"⟩
    authority := none
    items := (List.range 25).map (fun n =>
      (toString n,
       { link := some ("https://arweave.net/" ++ toString n)
         name := some ("item " ++ toString n)
         onChain := decide (n < 10) })) }

/-! ### Planner lemmas -/

theorem getBatchRangeGo_le (fsize : String → Nat) :
    ∀ (l : List String) (total range r : Nat),
      getBatchRangeGo fsize l total range = .ok r → range ≤ r ∧ r ≤ range + l.length := by
  intro l
  induction l with
  | nil => intro total range r h; simp [getBatchRangeGo] at h; omega
  | cons x xs ih =>
    intro total range r h
    simp only [getBatchRangeGo] at h
    by_cases hc : BATCH_SIZE_LIMIT ≤ total + fsize x
    · simp [hc] at h
      by_cases hr : range = 0
      · simp [hr] at h
      · simp [hr] at h
        simp [List.length_cons]
        omega
    · simp [hc] at h
      have := ih (total + fsize x) (range + 1) r h
      simp [List.length_cons]
      omega

theorem getBatchRange_pos (fsize : String → Nat) (x : String) (xs : List String) (r : Nat)
    (h : getBatchRange fsize (x :: xs) = .ok r) : 1 ≤ r := by
  simp only [getBatchRange, getBatchRangeGo, Nat.zero_add] at h
  by_cases hc : BATCH_SIZE_LIMIT ≤ fsize x
  · simp [hc] at h
  · simp [hc] at h
    exact (getBatchRangeGo_le fsize xs (fsize x) 1 r h).1

theorem getBatchRangeGo_sum_lt (fsize : String → Nat) :
    ∀ (l : List String) (total range r : Nat), total < BATCH_SIZE_LIMIT →
      getBatchRangeGo fsize l total range = .ok r →
      total + sumSizes fsize (l.take (r - range)) < BATCH_SIZE_LIMIT := by
  intro l
  induction l with
  | nil => intro total range r ht h; simpa [sumSizes] using ht
  | cons x xs ih =>
    intro total range r ht h
    simp only [getBatchRangeGo] at h
    by_cases hc : BATCH_SIZE_LIMIT ≤ total + fsize x
    · simp [hc] at h
      by_cases hr : range = 0
      · simp [hr] at h
      · simp [hr] at h
        have h0 : r - range = 0 := by omega
        simpa [h0, sumSizes] using ht
    · simp [hc] at h
      have hle := (getBatchRangeGo_le fsize xs (total + fsize x) (range + 1) r h).1
      have := ih (total + fsize x) (range + 1) r (by omega) h
      have hrr : r - range = (r - (range + 1)) + 1 := by omega
      rw [hrr]
      simp only [List.take_succ_cons]
      simp [sumSizes] at this ⊢
      omega

theorem getBatchRangeGo_break (fsize : String → Nat) :
    ∀ (l : List String) (total range r : Nat) (y : String),
      getBatchRangeGo fsize l total range = .ok r →
      l[r - range]? = some y →
      BATCH_SIZE_LIMIT ≤ total + sumSizes fsize (l.take (r - range)) + fsize y := by
  intro l
  induction l with
  | nil => intro total range r y _ hy; simp at hy
  | cons x xs ih =>
    intro total range r y h hy
    simp only [getBatchRangeGo] at h
    by_cases hc : BATCH_SIZE_LIMIT ≤ total + fsize x
    · simp [hc] at h
      by_cases hr : range = 0
      · simp [hr] at h
      · simp [hr] at h
        have h0 : r - range = 0 := by omega
        rw [h0] at hy
        simp at hy
        simpa [h0, sumSizes, ← hy] using hc
    · simp [hc] at h
      have hle := (getBatchRangeGo_le fsize xs (total + fsize x) (range + 1) r h).1
      have hrr : r - range = (r - (range + 1)) + 1 := by omega
      rw [hrr] at hy ⊢
      simp only [List.getElem?_cons_succ] at hy
      have := ih (total + fsize x) (range + 1) r y h hy
      simp only [List.take_succ_cons]
      simp [sumSizes] at this ⊢
      omega

theorem getBatchRangeGo_take_small (fsize : String → Nat) :
    ∀ (l : List String) (total range r : Nat), getBatchRangeGo fsize l total range = .ok r →
      ∀ y ∈ l.take (r - range), fsize y < BATCH_SIZE_LIMIT := by
  intro l
  induction l with
  | nil => intro total range r h y hy; simp at hy
  | cons x xs ih =>
    intro total range r h y hy
    simp only [getBatchRangeGo] at h
    by_cases hc : BATCH_SIZE_LIMIT ≤ total + fsize x
    · simp [hc] at h
      by_cases hr : range = 0
      · simp [hr] at h
      · simp [hr] at h
        have h0 : r - range = 0 := by omega
        rw [h0] at hy
        simp at hy
    · simp [hc] at h
      have hle := (getBatchRangeGo_le fsize xs (total + fsize x) (range + 1) r h).1
      have hrr : r - range = (r - (range + 1)) + 1 := by omega
      rw [hrr] at hy
      simp only [List.take_succ_cons, List.mem_cons] at hy
      rcases hy with rfl | hy
      · omega
      · exact ih (total + fsize x) (range + 1) r h y hy

theorem getBatchRange_error_of_oversize (fsize : String → Nat) (x : String) (xs : List String)
    (h : BATCH_SIZE_LIMIT ≤ fsize x) :
    getBatchRange fsize (x :: xs) = .error "Item too big for arBundles size limit of 50000000." := by
  simp [getBatchRange, getBatchRangeGo, h]

theorem getBatchRangeGo_ok_of_pos (fsize : String → Nat) :
    ∀ (l : List String) (total range : Nat), 0 < range →
      ∃ r, getBatchRangeGo fsize l total range = .ok r := by
  intro l
  induction l with
  | nil => intro total range _; exact ⟨range, rfl⟩
  | cons x xs ih =>
    intro total range hr
    by_cases hc : BATCH_SIZE_LIMIT ≤ total + fsize x
    · exact ⟨range, by simp [getBatchRangeGo, hc, Nat.pos_iff_ne_zero.mp hr]⟩
    · obtain ⟨r, hr'⟩ := ih (total + fsize x) (range + 1) (by omega)
      exact ⟨r, by simp [getBatchRangeGo, hc, hr']⟩

theorem getBatchRange_ok_of_small (fsize : String → Nat) (x : String) (xs : List String)
    (h : fsize x < BATCH_SIZE_LIMIT) : ∃ r, getBatchRange fsize (x :: xs) = .ok r := by
  have hc : ¬ BATCH_SIZE_LIMIT ≤ 0 + fsize x := by omega
  obtain ⟨r, hr⟩ := getBatchRangeGo_ok_of_pos fsize xs (0 + fsize x) 1 (by omega)
  exact ⟨r, by simp only [getBatchRange, getBatchRangeGo, if_neg hc, hr]⟩

theorem planBatchesAux_join (fsize : String → Nat) :
    ∀ (fuel : Nat) (items : List String) (bs : List (List String)),
      items.length ≤ fuel → planBatchesAux fsize fuel items = .ok bs → bs.flatten = items := by
  intro fuel
  induction fuel with
  | zero =>
    intro items bs hlen h
    match items with
    | [] => simp [planBatchesAux] at h; simp [h]
    | _ :: _ => simp at hlen
  | succ fuel ih =>
    intro items bs hlen h
    match items with
    | [] => simp [planBatchesAux] at h; simp [h]
    | x :: xs =>
      cases hgr : getBatchRange fsize (x :: xs) with
      | error e => simp [planBatchesAux, hgr] at h
      | ok range =>
        cases hrec : planBatchesAux fsize fuel ((x :: xs).drop range) with
        | error e => simp [planBatchesAux, hgr, hrec] at h
        | ok bs' =>
          simp only [planBatchesAux, hgr, Except.ok.injEq, hrec] at h
          have hpos := getBatchRange_pos fsize x xs range hgr
          have hlen' : ((x :: xs).drop range).length ≤ fuel := by
            simp only [List.length_drop, List.length_cons] at *
            omega
          have hjoin := ih _ _ hlen' hrec
          rw [← h]
          simp [hjoin]

theorem planBatchesAux_batches (fsize : String → Nat) :
    ∀ (fuel : Nat) (items : List String) (bs : List (List String)),
      items.length ≤ fuel → planBatchesAux fsize fuel items = .ok bs →
      ∀ b ∈ bs, b ≠ [] ∧ sumSizes fsize b < BATCH_SIZE_LIMIT := by
  intro fuel
  induction fuel with
  | zero =>
    intro items bs hlen h
    match items with
    | [] => simp [planBatchesAux] at h; simp [h]
    | _ :: _ => simp at hlen
  | succ fuel ih =>
    intro items bs hlen h
    match items with
    | [] => simp [planBatchesAux] at h; simp [h]
    | x :: xs =>
      cases hgr : getBatchRange fsize (x :: xs) with
      | error e => simp [planBatchesAux, hgr] at h
      | ok range =>
        cases hrec : planBatchesAux fsize fuel ((x :: xs).drop range) with
        | error e => simp [planBatchesAux, hgr, hrec] at h
        | ok bs' =>
          simp only [planBatchesAux, hgr, Except.ok.injEq, hrec] at h
          have hpos := getBatchRange_pos fsize x xs range hgr
          have hlen' : ((x :: xs).drop range).length ≤ fuel := by
            simp only [List.length_drop, List.length_cons] at *
            omega
          intro b hb
          rw [← h] at hb
          rcases List.mem_cons.mp hb with rfl | hb
          · constructor
            · simp [List.take_eq_nil_iff]
              omega
            · have := getBatchRangeGo_sum_lt fsize (x :: xs) 0 0 range
                (by decide) hgr
              simpa using this
          · exact ih _ _ hlen' hrec b hb

theorem planBatchesAux_adjacent (fsize : String → Nat) :
    ∀ (fuel : Nat) (items : List String) (bs : List (List String)),
      items.length ≤ fuel → planBatchesAux fsize fuel items = .ok bs →
      ∀ (i : Nat) (bi : List String) (x : String) (rest : List String),
        bs[i]? = some bi → bs[i + 1]? = some (x :: rest) →
        BATCH_SIZE_LIMIT ≤ sumSizes fsize bi + fsize x := by
  intro fuel
  induction fuel with
  | zero =>
    intro items bs hlen h
    match items with
    | [] =>
      simp [planBatchesAux] at h
      intro i bi x rest hbi _
      rw [h] at hbi; simp at hbi
    | _ :: _ => simp at hlen
  | succ fuel ih =>
    intro items bs hlen h
    match items with
    | [] =>
      simp [planBatchesAux] at h
      intro i bi x rest hbi _
      rw [h] at hbi; simp at hbi
    | x₀ :: xs =>
      cases hgr : getBatchRange fsize (x₀ :: xs) with
      | error e => simp [planBatchesAux, hgr] at h
      | ok range =>
        cases hrec : planBatchesAux fsize fuel ((x₀ :: xs).drop range) with
        | error e => simp [planBatchesAux, hgr, hrec] at h
        | ok bs' =>
          simp only [planBatchesAux, hgr, Except.ok.injEq, hrec] at h
          have hpos := getBatchRange_pos fsize x₀ xs range hgr
          have hlen' : ((x₀ :: xs).drop range).length ≤ fuel := by
            simp only [List.length_drop, List.length_cons] at *
            omega
          intro i bi x rest hbi hnext
          rw [← h] at hbi hnext
          match i with
          | 0 =>
            simp at hbi hnext
            -- head of the next batch is the item right after the closed batch
            cases bs' with
            | nil => simp at hnext
            | cons b₂ tail =>
              simp at hnext
              have hjoin := planBatchesAux_join fsize fuel _ _ hlen' hrec
              rw [hnext] at hjoin
              have hhead : ((x₀ :: xs).drop range)[0]? = some x := by
                rw [← hjoin]; simp
              rw [List.getElem?_drop] at hhead
              simp only [Nat.add_zero] at hhead
              have := getBatchRangeGo_break fsize (x₀ :: xs) 0 0 range x hgr
                (by simpa using hhead)
              rw [← hbi]
              simpa using this
          | i + 1 =>
            simp at hbi hnext
            exact ih _ _ hlen' hrec i bi x rest hbi hnext

theorem planBatchesAux_total (fsize : String → Nat) :
    ∀ (fuel : Nat) (items : List String), items.length ≤ fuel →
      (∀ y ∈ items, fsize y < BATCH_SIZE_LIMIT) →
      ∃ bs, planBatchesAux fsize fuel items = .ok bs := by
  intro fuel
  induction fuel with
  | zero =>
    intro items hlen _
    match items with
    | [] => exact ⟨[], rfl⟩
    | _ :: _ => simp at hlen
  | succ fuel ih =>
    intro items hlen hsmall
    match items with
    | [] => exact ⟨[], rfl⟩
    | x :: xs =>
      obtain ⟨range, hgr⟩ := getBatchRange_ok_of_small fsize x xs
        (hsmall x (by simp))
      have hpos := getBatchRange_pos fsize x xs range hgr
      have hlen' : ((x :: xs).drop range).length ≤ fuel := by
        simp only [List.length_drop, List.length_cons] at *
        omega
      obtain ⟨bs', hrec⟩ := ih ((x :: xs).drop range) hlen'
        (fun y hy => hsmall y (List.drop_subset range (x :: xs) hy))
      exact ⟨(x :: xs).take range :: bs', by simp [planBatchesAux, hgr, hrec]⟩

theorem planBatchesAux_error_of_oversize (fsize : String → Nat) :
    ∀ (fuel : Nat) (items : List String),
      (∃ y ∈ items, BATCH_SIZE_LIMIT ≤ fsize y) →
      ∃ e, planBatchesAux fsize fuel items = .error e := by
  intro fuel
  induction fuel with
  | zero =>
    intro items hy
    match items with
    | [] => simp at hy
    | _ :: _ => exact ⟨"out of fuel", rfl⟩
  | succ fuel ih =>
    intro items hy
    match items with
    | [] => simp at hy
    | x :: xs =>
      by_cases hx : BATCH_SIZE_LIMIT ≤ fsize x
      · exact ⟨"Item too big for arBundles size limit of 50000000.",
          by simp [planBatchesAux, getBatchRange_error_of_oversize fsize x xs hx]⟩
      · cases hgr : getBatchRange fsize (x :: xs) with
        | error e => exact ⟨e, by simp [planBatchesAux, hgr]⟩
        | ok range =>
          obtain ⟨y, hymem, hysize⟩ := hy
          have hsmall := getBatchRangeGo_take_small fsize (x :: xs) 0 0 range hgr
          have hydrop : y ∈ (x :: xs).drop range := by
            rcases (List.mem_append.mp
              (by rw [List.take_append_drop]; exact hymem :
                y ∈ (x :: xs).take range ++ (x :: xs).drop range)) with htk | hdp
            · exact absurd hysize (by simpa using Nat.not_le.mpr (hsmall y (by simpa using htk)))
            · exact hdp
          obtain ⟨e, hrec⟩ := ih ((x :: xs).drop range) ⟨y, hydrop, hysize⟩
          exact ⟨e, by simp [planBatchesAux, hgr, hrec]⟩

theorem arweaveBundleUpload_oversize (net : Phase → List String → Except String (List String))
    (readMan : String → Manifest) (fsize : String → Nat) (items : List String) (y : String)
    (hy : y ∈ items) (hsize : BATCH_SIZE_LIMIT ≤ fsize y) :
    ∃ e, arweaveBundleUpload net readMan fsize items = (.error e, []) := by
  obtain ⟨e, he⟩ := planBatchesAux_error_of_oversize fsize items.length items ⟨y, hy, hsize⟩
  exact ⟨e, by simp [arweaveBundleUpload, planBatches, he]⟩

/-! ### Cache map lemmas -/

theorem lookupItem_setItem (l : List (String × CacheEntry)) (k k' : String) (e : CacheEntry) :
    lookupItem (setItem l k e) k' = if k' = k then some e else lookupItem l k' := by
  induction l with
  | nil =>
    simp only [setItem, lookupItem]
    by_cases h : k = k'
    · simp [h]
    · simp [h, Ne.symm h]
  | cons p rest ih =>
    obtain ⟨k₀, e₀⟩ := p
    simp only [setItem]
    by_cases h0 : k₀ = k
    · subst h0
      simp only [if_pos rfl, lookupItem]
      by_cases h1 : k₀ = k'
      · simp [h1]
      · simp [h1, Ne.symm h1]
    · simp only [if_neg h0, lookupItem, ih]
      by_cases h1 : k₀ = k'
      · subst h1
        simp [Ne.symm h0, h0]
      · simp [h1]

theorem lookupItem_mem (l : List (String × CacheEntry)) (k : String) (e : CacheEntry)
    (h : lookupItem l k = some e) : (k, e) ∈ l := by
  induction l with
  | nil => simp [lookupItem] at h
  | cons p rest ih =>
    obtain ⟨k₀, e₀⟩ := p
    by_cases h0 : k₀ = k
    · subst h0
      simp [lookupItem] at h
      simp [h]
    · simp [lookupItem, h0] at h
      exact List.mem_cons_of_mem _ (ih h)

theorem mem_keys_lookup (l : List (String × CacheEntry)) (k : String)
    (h : k ∈ l.map Prod.fst) : ∃ e, lookupItem l k = some e := by
  induction l with
  | nil => simp at h
  | cons p rest ih =>
    obtain ⟨k₀, e₀⟩ := p
    by_cases h0 : k₀ = k
    · exact ⟨e₀, by simp [lookupItem, h0]⟩
    · simp only [List.map_cons, List.mem_cons] at h
      rcases h with h | h
      · exact absurd h.symm h0
      · obtain ⟨e, he⟩ := ih h
        exact ⟨e, by simp [lookupItem, h0, he]⟩

theorem setItem_keys_sup (l : List (String × CacheEntry)) (k k' : String) (e : CacheEntry)
    (h : k' ∈ l.map Prod.fst) : k' ∈ (setItem l k e).map Prod.fst := by
  induction l with
  | nil => simp at h
  | cons p rest ih =>
    obtain ⟨k₀, e₀⟩ := p
    simp only [List.map_cons, List.mem_cons] at h
    by_cases h0 : k₀ = k
    · subst h0
      simpa [setItem] using h
    · rcases h with h | h
      · simp [setItem, h0, h]
      · simp [setItem, h0, ih h]

/-! ### Chunking lemmas -/

theorem chunksAux_flatten (n : Nat) :
    ∀ (l acc : List α), (chunksAux n l acc).flatten = acc.reverse ++ l := by
  intro l
  induction l with
  | nil =>
    intro acc
    by_cases h : acc.isEmpty
    · simp [chunksAux, h, List.isEmpty_iff.mp h]
    · simp [chunksAux, h]
  | cons x xs ih =>
    intro acc
    simp only [chunksAux]
    by_cases h : (x :: acc).length = n
    · rw [if_pos h]
      simp [ih]
    · rw [if_neg h]
      simp [ih]

theorem chunks_flatten (n : Nat) (l : List α) : (chunks n l).flatten = l := by
  simpa using chunksAux_flatten n l []

theorem flatten_map_chunks (m : Nat) (L : List (List Nat)) :
    ((L.map (chunks m)).flatten).flatten = L.flatten := by
  induction L with
  | nil => simp
  | cons ch rest ih => simp [List.flatten_append, chunks_flatten, ih]

theorem innerGroups_flatten (n : Nat) : (innerGroups n).flatten = List.range n := by
  unfold innerGroups
  rw [flatten_map_chunks, chunks_flatten]

/-! ### Claim theorems -/

/-- C1: the size-bounded batch planner, on byte sizes `[30MB, 30MB, 10MB]`
with the 50MB ceiling, produces exactly the batches
`[[item0], [item1, item2]]`; and, in general, every successful plan
flattens back to the pending list (order preserved, no item dropped),
every batch is non-empty, every batch's cumulative size stays below the
ceiling while adding the next pending item would meet or exceed it, and
planning succeeds for every pending list whose items are each below the
ceiling. -/
theorem size_bounded_batching_correct :
    planBatches sizesExample ["item0", "item1", "item2"] =
      .ok [["item0"], ["item1", "item2"]] ∧
    (∀ (fsize : String → Nat) (items : List String) (bs : List (List String)),
      planBatches fsize items = .ok bs →
        bs.flatten = items ∧ (∀ b ∈ bs, b ≠ []) ∧
        (∀ b ∈ bs, sumSizes fsize b < BATCH_SIZE_LIMIT) ∧
        (∀ (i : Nat) (bi : List String) (x : String) (rest : List String),
          bs[i]? = some bi → bs[i + 1]? = some (x :: rest) →
          BATCH_SIZE_LIMIT ≤ sumSizes fsize bi + fsize x)) ∧
    (∀ (fsize : String → Nat) (items : List String),
      (∀ y ∈ items, fsize y < BATCH_SIZE_LIMIT) →
      ∃ bs, planBatches fsize items = .ok bs) := by
  refine ⟨rfl, ?_, ?_⟩
  · intro fsize items bs h
    exact ⟨planBatchesAux_join fsize items.length items bs le_rfl h,
      fun b hb => (planBatchesAux_batches fsize items.length items bs le_rfl h b hb).1,
      fun b hb => (planBatchesAux_batches fsize items.length items bs le_rfl h b hb).2,
      planBatchesAux_adjacent fsize items.length items bs le_rfl h⟩
  · intro fsize items hsmall
    exact planBatchesAux_total fsize items.length items le_rfl hsmall

/-- Witness: the batching theorem applied at the spec's example input. -/
theorem size_bounded_batching_correct_witness :
    ([["item0"], ["item1", "item2"]] : List (List String)).flatten =
        ["item0", "item1", "item2"] ∧
      (∀ b ∈ [["item0"], ["item1", "item2"]], sumSizes sizesExample b < BATCH_SIZE_LIMIT) ∧
      (∃ bs, planBatches sizesExample ["item0", "item1", "item2"] = .ok bs) :=
  ⟨(size_bounded_batching_correct.2.1 sizesExample _ _ size_bounded_batching_correct.1).1,
   (size_bounded_batching_correct.2.1 sizesExample _ _ size_bounded_batching_correct.1).2.2.1,
   size_bounded_batching_correct.2.2 sizesExample ["item0", "item1", "item2"] (by decide)⟩

/-- C6: an item whose raw image size alone meets or exceeds the bundle
ceiling makes the planner throw while the batches are still being
planned, so the bundle uploader performs no network call at all, and the
newer pipeline's bundle run rejects with no upload of any batch. -/
theorem oversized_item_fatal :
    (∀ (net : Phase → List String → Except String (List String))
        (readMan : String → Manifest) (fsize : String → Nat) (items : List String)
        (y : String), y ∈ items → BATCH_SIZE_LIMIT ≤ fsize y →
      (∃ e, (arweaveBundleUpload net readMan fsize items).1 = .error e) ∧
      (arweaveBundleUpload net readMan fsize items).2 = []) ∧
    (∀ (net : Phase → List String → Except String (List String))
        (uplSimple : String → Except String Unit) (readMan : String → Manifest)
        (fsize : String → Nat) (initC : Except String (String × String))
        (rpc : String → Bool) (files : List String) (c₀ : Cache) (y : String),
      y ∈ getItemsNeedingUpload c₀.items files → BATCH_SIZE_LIMIT ≤ fsize y →
      (∃ e, (uploadP0 .arweaveNative net uplSimple readMan fsize initC rpc files c₀).1 =
        .error e) ∧
      (uploadP0 .arweaveNative net uplSimple readMan fsize initC rpc files c₀).2 =
        ⟨[], [], []⟩) := by
  constructor
  · intro net readMan fsize items y hy hsize
    obtain ⟨e, he⟩ := arweaveBundleUpload_oversize net readMan fsize items y hy hsize
    exact ⟨⟨e, by rw [he]⟩, by rw [he]⟩
  · intro net uplSimple readMan fsize initC rpc files c₀ y hy hsize
    obtain ⟨e, he⟩ := arweaveBundleUpload_oversize net readMan fsize
      (getItemsNeedingUpload c₀.items files) y hy hsize
    have hne : (getItemsNeedingUpload c₀.items files).isEmpty = false := by
      cases hl : getItemsNeedingUpload c₀.items files with
      | nil => rw [hl] at hy; simp at hy
      | cons a as => simp
    constructor
    · exact ⟨e, by simp [uploadP0, hne, he]⟩
    · simp [uploadP0, hne, he]

/-- Witness: the oversize theorem applied at a one-item input whose
single image already fills the ceiling. -/
theorem oversized_item_fatal_witness :
    (∃ e, (arweaveBundleUpload (fun _ _ => .ok []) (fun _ => ⟨"n", "s", 0, [], "", []⟩)
      (fun _ => 50000000) ["big"]).1 = .error e) ∧
    (uploadP0 .arweaveNative (fun _ _ => .ok []) (fun _ => .ok ())
      (fun _ => ⟨"n", "s", 0, [], "", []⟩) (fun _ => 50000000) (.ok ("u", "c"))
      (fun _ => true) ["big.png"] ⟨⟨none, none⟩, [], none⟩).2 = ⟨[], [], []⟩ :=
  ⟨(oversized_item_fatal.1 (fun _ _ => .ok []) (fun _ => ⟨"n", "s", 0, [], "", []⟩)
      (fun _ => 50000000) ["big"] "big" (by decide) (by decide)).1,
   (oversized_item_fatal.2 (fun _ _ => .ok []) (fun _ => .ok ())
      (fun _ => ⟨"n", "s", 0, [], "", []⟩) (fun _ => 50000000) (.ok ("u", "c"))
      (fun _ => true) ["big.png"] ⟨⟨none, none⟩, [], none⟩ "big" (by decide) (by decide)).2⟩

theorem innerGroups_mem_lt (n : Nat) (g : List Nat) (i : Nat)
    (hg : g ∈ innerGroups n) (hi : i ∈ g) : i < n := by
  have hmem : i ∈ (innerGroups n).flatten := List.mem_flatten.mpr ⟨g, hg, hi⟩
  rw [innerGroups_flatten] at hmem
  exact List.mem_range.mp hmem

theorem innerGroups_disjoint (n : Nat) : (innerGroups n).Pairwise List.Disjoint := by
  have hnd : ((innerGroups n).flatten).Nodup := by
    rw [innerGroups_flatten]
    exact List.nodup_range n
  exact (List.nodup_flatten.mp hnd).2

/-! ### Registry write lemmas -/

theorem keyAt_inj (keys : List String) (hnd : keys.Nodup) (i j : Nat)
    (hi : i < keys.length) (hj : j < keys.length) (hne : i ≠ j) :
    keyAt keys i ≠ keyAt keys j := by
  simp only [keyAt, List.getElem?_eq_getElem hi, List.getElem?_eq_getElem hj, Option.getD_some]
  intro he
  exact hne ((List.Nodup.getElem_inj_iff hnd).mp he)

theorem lookupItem_markOnChain_ne (c : Cache) (k k' : String) (h : k' ≠ k) :
    lookupItem (markOnChain c k).items k' = lookupItem c.items k' := by
  unfold markOnChain
  cases hl : lookupItem c.items k <;> simp [lookupItem_setItem, h]

theorem lookup_foldl_mark (keys : List String) (g : List Nat) :
    ∀ (c : Cache) (k : String), (∀ j ∈ g, keyAt keys j ≠ k) →
      lookupItem (g.foldl (fun acc i => markOnChain acc (keyAt keys i)) c).items k =
        lookupItem c.items k := by
  induction g with
  | nil => intro c k _; rfl
  | cons j js ih =>
    intro c k h
    simp only [List.foldl_cons]
    rw [ih (markOnChain c (keyAt keys j)) k (fun j' hj' => h j' (List.mem_cons_of_mem _ hj'))]
    exact lookupItem_markOnChain_ne c (keyAt keys j) k (Ne.symm (h j (List.mem_cons_self _ _)))

theorem processGroup_fail (rpc : String → Bool) (keys : List String) (c : Cache)
    (g : List Nat) (h : rpc (keyAt keys (g.headD 0)) = false) :
    (processGroup rpc keys c g).1 = c := by
  unfold processGroup
  by_cases hall : g.all (onChainAt c keys) = true
  · simp [hall]
  · simp only [if_neg hall]
    split
    · rename_i hcond
      rw [h] at hcond
      exact absurd hcond (by simp)
    · rfl

theorem processGroup_lookup_preserve (rpc : String → Bool) (keys : List String) (c : Cache)
    (g : List Nat) (k : String) (h : ∀ j ∈ g, keyAt keys j ≠ k) :
    lookupItem (processGroup rpc keys c g).1.items k = lookupItem c.items k := by
  unfold processGroup
  by_cases hall : g.all (onChainAt c keys) = true
  · simp [hall]
  · simp only [if_neg hall]
    split
    · exact lookup_foldl_mark keys g c k h
    · rfl

theorem registryFold_lookup_preserve (rpc : String → Bool) (keys : List String)
    (gs : List (List Nat)) :
    ∀ (init : Cache × List (String × Bool)) (k : String),
      (∀ g' ∈ gs, ∀ j ∈ g', keyAt keys j ≠ k) →
      lookupItem (gs.foldl (registryStep rpc keys) init).1.items k =
        lookupItem init.1.items k := by
  induction gs with
  | nil => intro init k _; rfl
  | cons g gs ih =>
    intro init k h
    simp only [List.foldl_cons]
    rw [ih _ k (fun g' hg' j hj => h g' (List.mem_cons_of_mem _ hg') j hj)]
    exact processGroup_lookup_preserve rpc keys init.1 g k (h g (List.mem_cons_self _ _))

theorem registryFold_fail_preserve (rpc : String → Bool) (keys : List String)
    (hnd : keys.Nodup) (gs : List (List Nat)) :
    ∀ (init : Cache × List (String × Bool)) (g : List Nat) (i : Nat),
      g ∈ gs → i ∈ g →
      (∀ g' ∈ gs, ∀ j ∈ g', j < keys.length) →
      gs.Pairwise List.Disjoint →
      rpc (keyAt keys (g.headD 0)) = false →
      lookupItem (gs.foldl (registryStep rpc keys) init).1.items (keyAt keys i) =
        lookupItem init.1.items (keyAt keys i) := by
  induction gs with
  | nil => intro init g i hg; simp at hg
  | cons g₀ gs ih =>
    intro init g i hg hi hbound hdisj hrpc
    rcases List.mem_cons.mp hg with rfl | hgmem
    · -- the failing group runs first and leaves the cache unchanged,
      -- and later groups touch disjoint key positions
      simp only [List.foldl_cons]
      have havoid : ∀ g' ∈ gs, ∀ j ∈ g', keyAt keys j ≠ keyAt keys i := by
        intro g' hg' j hj
        have hdisj' : g.Disjoint g' := (List.pairwise_cons.mp hdisj).1 g' hg'
        have hji : j ≠ i := fun he => hdisj' hi (he ▸ hj)
        exact keyAt_inj keys hnd j i (hbound g' (List.mem_cons_of_mem _ hg') j hj)
          (hbound g (List.mem_cons_self _ _) i hi) hji
      rw [registryFold_lookup_preserve rpc keys gs _ _ havoid]
      have hstep : (registryStep rpc keys init g).1 = init.1 := by
        simp only [registryStep]
        exact processGroup_fail rpc keys init.1 g hrpc
      rw [hstep]
    · -- the head group is disjoint from the failing one
      simp only [List.foldl_cons]
      have havoid₀ : ∀ j ∈ g₀, keyAt keys j ≠ keyAt keys i := by
        intro j hj
        have hdisj' : g₀.Disjoint g := (List.pairwise_cons.mp hdisj).1 g hgmem
        have hji : j ≠ i := fun he => hdisj' hj (he ▸ hi)
        exact keyAt_inj keys hnd j i (hbound g₀ (List.mem_cons_self _ _) j hj)
          (hbound g (List.mem_cons_of_mem _ hgmem) i hi) hji
      rw [ih _ g i hgmem hi
        (fun g' hg' j hj => hbound g' (List.mem_cons_of_mem _ hg') j hj)
        ((List.pairwise_cons.mp hdisj).2) hrpc]
      have hstep : lookupItem (registryStep rpc keys init g₀).1.items (keyAt keys i) =
          lookupItem init.1.items (keyAt keys i) := by
        simp only [registryStep]
        exact processGroup_lookup_preserve rpc keys init.1 g₀ (keyAt keys i) havoid₀
      rw [hstep]

/-- C10: when the registry write for an inner group fails, the attempt
leaves the cache exactly as it was (no member's entry is touched), and
over a whole commit run the entries of every member of the failed group
are unchanged at the end of the run, so the group is retried in full on
the next run. -/
theorem failed_group_write_leaves_cache :
    (∀ (rpc : String → Bool) (keys : List String) (c : Cache) (g : List Nat),
      rpc (keyAt keys (g.headD 0)) = false →
      (processGroup rpc keys c g).1 = c) ∧
    (∀ (rpc : String → Bool) (c : Cache) (g : List Nat) (i : Nat),
      (c.items.map Prod.fst).Nodup →
      g ∈ innerGroups (c.items.map Prod.fst).length →
      i ∈ g →
      rpc (keyAt (c.items.map Prod.fst) (g.headD 0)) = false →
      lookupItem (registryPhase rpc c).1.items (keyAt (c.items.map Prod.fst) i) =
        lookupItem c.items (keyAt (c.items.map Prod.fst) i)) := by
  refine ⟨processGroup_fail, ?_⟩
  intro rpc c g i hnd hg hi hrpc
  exact registryFold_fail_preserve rpc (c.items.map Prod.fst) hnd
    (innerGroups (c.items.map Prod.fst).length) (c, []) g i hg hi
    (fun g' hg' j hj => innerGroups_mem_lt _ g' j hg' hj)
    (innerGroups_disjoint _) hrpc

/-- Witness: the failed-group theorem applied to a one-item cache whose
single group's write fails. -/
theorem failed_group_write_leaves_cache_witness :
    (processGroup (fun _ => false) ["0"]
        ⟨⟨some "u", some "c"⟩, [("0", ⟨some "L", some "n", false⟩)], none⟩ [0]).1 =
      ⟨⟨some "u", some "c"⟩, [("0", ⟨some "L", some "n", false⟩)], none⟩ ∧
    lookupItem (registryPhase (fun _ => false)
        ⟨⟨some "u", some "c"⟩, [("0", ⟨some "L", some "n", false⟩)], none⟩).1.items
        (keyAt ["0"] 0) =
      lookupItem [("0", ⟨some "L", some "n", false⟩)] (keyAt ["0"] 0) :=
  ⟨failed_group_write_leaves_cache.1 (fun _ => false) ["0"]
      ⟨⟨some "u", some "c"⟩, [("0", ⟨some "L", some "n", false⟩)], none⟩ [0] rfl,
   failed_group_write_leaves_cache.2 (fun _ => false)
      ⟨⟨some "u", some "c"⟩, [("0", ⟨some "L", some "n", false⟩)], none⟩ [0] 0
      (by decide) (by decide) (by decide) rfl⟩

/-- C3: the registry committer issues a group's write call iff not every
member of the inner group is already `onChain` (the
`onChain.length != indexes.length` check), i.e. the call is skipped iff
every member is on chain; and on the 25-item cache whose first 10 items
are on chain, a commit run issues exactly 2 writes, keyed by the first
indices of the second and third groups. -/
theorem registry_group_skip_iff :
    (∀ (rpc : String → Bool) (keys : List String) (c : Cache) (g : List Nat),
      (processGroup rpc keys c g).2 = none ↔ g.all (onChainAt c keys) = true) ∧
    (registryPhase (fun _ => true) cache25).2.map Prod.fst = ["10", "20"] ∧
    (registryPhase (fun _ => true) cache25).2.length = 2 := by
  refine ⟨?_, rfl, rfl⟩
  intro rpc keys c g
  by_cases h : g.all (onChainAt c keys) = true
  · simp [processGroup, h]
  · simp only [processGroup, if_neg h]
    constructor
    · intro hnone
      revert hnone
      split <;> simp [h]
    · intro hall
      exact absurd hall h

/-! ### Item selector and idempotent-resume lemmas -/

theorem firstDedupGo_mem (x : String) :
    ∀ (l seen : List String), x ∈ firstDedupGo seen l ↔ x ∈ l ∧ x ∉ seen := by
  intro l
  induction l with
  | nil => intro seen; simp [firstDedupGo]
  | cons y ys ih =>
    intro seen
    by_cases h : y ∈ seen
    · rw [show firstDedupGo seen (y :: ys) = firstDedupGo seen ys from by
        simp [firstDedupGo, h]]
      rw [ih seen]
      constructor
      · rintro ⟨hys, hns⟩
        exact ⟨List.mem_cons_of_mem _ hys, hns⟩
      · rintro ⟨hyy, hns⟩
        rcases List.mem_cons.mp hyy with rfl | hys
        · exact absurd h hns
        · exact ⟨hys, hns⟩
    · rw [show firstDedupGo seen (y :: ys) = y :: firstDedupGo (y :: seen) ys from by
        simp [firstDedupGo, h]]
      simp only [List.mem_cons, ih (y :: seen)]
      constructor
      · rintro (rfl | ⟨hys, hns⟩)
        · exact ⟨Or.inl rfl, h⟩
        · exact ⟨Or.inr hys, fun hm => hns (Or.inr hm)⟩
      · rintro ⟨hyy, hns⟩
        rcases hyy with rfl | hys
        · exact Or.inl rfl
        · by_cases hxy : x = y
          · exact Or.inl hxy
          · exact Or.inr ⟨hys, by simp [hxy, hns]⟩

theorem firstDedup_mem (x : String) (l : List String) : x ∈ firstDedup l ↔ x ∈ l := by
  rw [firstDedup, firstDedupGo_mem]
  simp

theorem getItemsNeedingUpload_nil (items : List (String × CacheEntry)) (files : List String)
    (h1 : ∀ p ∈ items, linkTruthy p.2.link = true)
    (h2 : ∀ f ∈ files, fileStemAnyExt f ∈ items.map Prod.fst) :
    getItemsNeedingUpload items files = [] := by
  unfold getItemsNeedingUpload
  rw [List.filter_eq_nil_iff]
  intro x hx
  have hmem : x ∈ items.map Prod.fst ++ files.map fileStemAnyExt :=
    (firstDedup_mem x _).mp hx
  have hxk : x ∈ items.map Prod.fst := by
    rcases List.mem_append.mp hmem with h | h
    · exact h
    · obtain ⟨f, hf, rfl⟩ := List.mem_map.mp h
      exact h2 f hf
  obtain ⟨e, he⟩ := mem_keys_lookup items x hxk
  have htr : linkTruthy e.link = true := h1 (x, e) (lookupItem_mem _ _ _ he)
  simp [he, htr]

theorem keyAt_mem (keys : List String) (i : Nat) (hi : i < keys.length) :
    keyAt keys i ∈ keys := by
  simp only [keyAt, List.getElem?_eq_getElem hi, Option.getD_some]
  exact List.getElem_mem hi

theorem onChainAt_of_all (c : Cache) (h : ∀ p ∈ c.items, p.2.onChain = true)
    (i : Nat) (hi : i < (c.items.map Prod.fst).length) :
    onChainAt c (c.items.map Prod.fst) i = true := by
  unfold onChainAt
  obtain ⟨e, he⟩ := mem_keys_lookup c.items _ (keyAt_mem (c.items.map Prod.fst) i hi)
  rw [he]
  exact h _ (lookupItem_mem _ _ _ he)

theorem registryFold_skip_all (rpc : String → Bool) (c : Cache)
    (h : ∀ p ∈ c.items, p.2.onChain = true) (gs : List (List Nat)) :
    ∀ (calls : List (String × Bool)),
      (∀ g ∈ gs, ∀ i ∈ g, i < (c.items.map Prod.fst).length) →
      gs.foldl (registryStep rpc (c.items.map Prod.fst)) (c, calls) = (c, calls) := by
  induction gs with
  | nil => intro calls _; rfl
  | cons g gs ih =>
    intro calls hgs
    simp only [List.foldl_cons]
    have hall : g.all (onChainAt c (c.items.map Prod.fst)) = true := by
      rw [List.all_eq_true]
      intro i hi
      exact onChainAt_of_all c h i (hgs g (List.mem_cons_self _ _) i hi)
    have hstep : registryStep rpc (c.items.map Prod.fst) (c, calls) g = (c, calls) := by
      simp [registryStep, processGroup, hall]
    rw [hstep]
    exact ih calls (fun g' hg' => hgs g' (List.mem_cons_of_mem _ hg'))

theorem registryPhase_all_onChain (rpc : String → Bool) (c : Cache)
    (h : ∀ p ∈ c.items, p.2.onChain = true) :
    registryPhase rpc c = (c, []) := by
  unfold registryPhase
  exact registryFold_skip_all rpc c h (innerGroups (c.items.map Prod.fst).length) []
    (fun g hg i hi => innerGroups_mem_lt _ g i hg hi)

/-- C7: running the newer pipeline on a cache in which every item already
has a (truthy) link and is on chain, with no new input file, performs zero
bundle network calls, zero simple-path uploads and zero registry write
calls — with any backend and whatever the oracles do. -/
theorem idempotent_resume_no_calls
    (storage : P0Storage) (net : Phase → List String → Except String (List String))
    (uplSimple : String → Except String Unit) (readMan : String → Manifest)
    (fsize : String → Nat) (initC : Except String (String × String)) (rpc : String → Bool)
    (files : List String) (c₀ : Cache)
    (h1 : ∀ p ∈ c₀.items, linkTruthy p.2.link = true ∧ p.2.onChain = true)
    (h2 : ∀ f ∈ files, fileStemAnyExt f ∈ c₀.items.map Prod.fst) :
    (uploadP0 storage net uplSimple readMan fsize initC rpc files c₀).2 = ⟨[], [], []⟩ := by
  have hneed : getItemsNeedingUpload c₀.items files = [] :=
    getItemsNeedingUpload_nil c₀.items files (fun p hp => (h1 p hp).1) h2
  simp only [uploadP0, hneed, List.isEmpty_nil, if_pos]
  cases hcfg : c₀.program.config with
  | some cfg =>
    simp only [hcfg]
    have hreg := registryPhase_all_onChain rpc c₀ (fun p hp => (h1 p hp).2)
    simp [hreg]
  | none =>
    simp only [hcfg]
    cases initC with
    | error e => simp
    | ok p =>
      have hreg := registryPhase_all_onChain rpc
        { c₀ with program := { uuid := some p.1, config := some p.2 } }
        (fun q hq => (h1 q hq).2)
      simp [hreg]

/-- Witness: the resume theorem applied to a fully on-chain one-item
cache with its own file list. -/
theorem idempotent_resume_no_calls_witness :
    (uploadP0 .arweaveNative (fun _ _ => .error "net") (fun _ => .error "upl")
      (fun _ => ⟨"n", "s", 0, [], "", []⟩) (fun _ => 0) (.error "init") (fun _ => false)
      ["0.png"] ⟨⟨some "u", some "cfg"⟩, [("0", ⟨some "L", some "n", true⟩)], none⟩).2 =
      ⟨[], [], []⟩ :=
  idempotent_resume_no_calls .arweaveNative (fun _ _ => .error "net") (fun _ => .error "upl")
    (fun _ => ⟨"n", "s", 0, [], "", []⟩) (fun _ => 0) (.error "init") (fun _ => false)
    ["0.png"] ⟨⟨some "u", some "cfg"⟩, [("0", ⟨some "L", some "n", true⟩)], none⟩
    (by decide) (by decide)

/-! ### Item selector ordering lemmas -/

theorem firstDedupGo_nodup : ∀ (l seen : List String), (firstDedupGo seen l).Nodup := by
  intro l
  induction l with
  | nil => intro seen; simp [firstDedupGo]
  | cons y ys ih =>
    intro seen
    by_cases h : y ∈ seen
    · rw [show firstDedupGo seen (y :: ys) = firstDedupGo seen ys from by
        simp [firstDedupGo, h]]
      exact ih seen
    · rw [show firstDedupGo seen (y :: ys) = y :: firstDedupGo (y :: seen) ys from by
        simp [firstDedupGo, h]]
      refine List.nodup_cons.mpr ⟨?_, ih (y :: seen)⟩
      intro hy
      exact ((firstDedupGo_mem y ys (y :: seen)).mp hy).2 (List.mem_cons_self _ _)

theorem firstDedupGo_pairwise : ∀ (l seen : List String),
    List.Pairwise (fun a b => l.indexOf a < l.indexOf b) (firstDedupGo seen l) := by
  intro l
  induction l with
  | nil => intro seen; simp [firstDedupGo]
  | cons y ys ih =>
    intro seen
    by_cases h : y ∈ seen
    · rw [show firstDedupGo seen (y :: ys) = firstDedupGo seen ys from by
        simp [firstDedupGo, h]]
      refine List.Pairwise.imp_of_mem ?_ (ih seen)
      intro a b ha hb hlt
      have hay : y ≠ a := fun he => ((firstDedupGo_mem a ys seen).mp ha).2 (he ▸ h)
      have hby : y ≠ b := fun he => ((firstDedupGo_mem b ys seen).mp hb).2 (he ▸ h)
      rw [List.indexOf_cons_ne ys hay, List.indexOf_cons_ne ys hby]
      omega
    · rw [show firstDedupGo seen (y :: ys) = y :: firstDedupGo (y :: seen) ys from by
        simp [firstDedupGo, h]]
      refine List.pairwise_cons.mpr ⟨?_, ?_⟩
      · intro b hb
        have hby : y ≠ b := fun he =>
          ((firstDedupGo_mem b ys (y :: seen)).mp hb).2 (he ▸ List.mem_cons_self _ _)
        rw [List.indexOf_cons_self, List.indexOf_cons_ne ys hby]
        omega
      · refine List.Pairwise.imp_of_mem ?_ (ih (y :: seen))
        intro a b ha hb hlt
        have hay : y ≠ a := fun he =>
          ((firstDedupGo_mem a ys (y :: seen)).mp ha).2 (he ▸ List.mem_cons_self _ _)
        have hby : y ≠ b := fun he =>
          ((firstDedupGo_mem b ys (y :: seen)).mp hb).2 (he ▸ List.mem_cons_self _ _)
        rw [List.indexOf_cons_ne ys hay, List.indexOf_cons_ne ys hby]
        omega

/-- C8: the item selector is a pure function of the cache and the file
list; its result is duplicate-free, contains exactly the indices of the
union of cache keys and file stems whose cache entry has no (truthy)
link, and is ordered by first occurrence in the pool built from the
cache keys followed by the file stems — cache keys first, then new
files, duplicates suppressed by index. -/
theorem item_selector_spec (items : List (String × CacheEntry)) (files : List String) :
    (getItemsNeedingUpload items files).Nodup ∧
    (∀ x, x ∈ getItemsNeedingUpload items files ↔
      x ∈ items.map Prod.fst ++ files.map fileStemAnyExt ∧
      linkTruthy ((lookupItem items x).bind (fun e => e.link)) = false) ∧
    List.Pairwise
      (fun a b => (items.map Prod.fst ++ files.map fileStemAnyExt).indexOf a <
        (items.map Prod.fst ++ files.map fileStemAnyExt).indexOf b)
      (getItemsNeedingUpload items files) := by
  refine ⟨?_, ?_, ?_⟩
  · exact List.Nodup.filter _ (firstDedupGo_nodup _ [])
  · intro x
    simp only [getItemsNeedingUpload, List.mem_filter, firstDedup_mem]
    constructor
    · rintro ⟨hmem, hfilt⟩
      exact ⟨hmem, by simpa using hfilt⟩
    · rintro ⟨hmem, hfilt⟩
      exact ⟨hmem, by simpa using hfilt⟩
  · exact List.Pairwise.sublist (List.filter_sublist _) (firstDedupGo_pairwise _ [])

/-! ### Bundle two-phase lemmas -/

theorem seqExcept_error (l : List (Except String α)) (e : String)
    (h : Except.error e ∈ l) : ∃ e', seqExcept l = .error e' := by
  induction l with
  | nil => simp at h
  | cons r rest ih =>
    cases r with
    | error e0 => exact ⟨e0, rfl⟩
    | ok x =>
      rcases List.mem_cons.mp h with hr | hr
      · exact absurd hr (by simp)
      · obtain ⟨e', he'⟩ := ih hr
        exact ⟨e', by simp only [seqExcept, he']; rfl⟩

theorem seqExcept_ok (l : List (Except String α)) :
    ∀ (v : List α), seqExcept l = .ok v → ∀ r ∈ l, ∃ x, r = .ok x := by
  induction l with
  | nil => intro v _ r hr; simp at hr
  | cons r0 rest ih =>
    intro v h r hr
    cases r0 with
    | error e =>
      rw [show seqExcept (Except.error e :: rest) = Except.error e from rfl] at h
      exact absurd h (by simp)
    | ok x =>
      simp only [seqExcept] at h
      cases hrec : seqExcept rest with
      | error e => rw [hrec] at h; simp [Except.map] at h
      | ok v' =>
        rcases List.mem_cons.mp hr with rfl | hr
        · exact ⟨x, rfl⟩
        · exact ih v' hrec r hr

theorem runBatch_fst_error (net : Phase → List String → Except String (List String))
    (readMan : String → Manifest) (b : List String) (ids : List String) (e : String)
    (himg : net Phase.image b = .ok ids) (hman : net Phase.manifest b = .error e) :
    (runBatch net readMan b).1 = .error e := by
  simp [runBatch, himg, hman]

theorem runBatch_fst_ok (net : Phase → List String → Except String (List String))
    (readMan : String → Manifest) (b : List String)
    (v : List Manifest × List String × List String)
    (h : (runBatch net readMan b).1 = .ok v) :
    (∃ w, net Phase.image b = .ok w) ∧ (∃ w, net Phase.manifest b = .ok w) := by
  cases h1 : net Phase.image b with
  | error e =>
    simp only [runBatch, h1] at h
    exact absurd h (by simp)
  | ok w1 =>
    cases h2 : net Phase.manifest b with
    | error e =>
      simp only [runBatch, h1, h2] at h
      exact absurd h (by simp)
    | ok w2 => exact ⟨⟨w1, rfl⟩, ⟨w2, rfl⟩⟩

theorem arweaveBundleUpload_fst (net : Phase → List String → Except String (List String))
    (readMan : String → Manifest) (fsize : String → Nat) (items : List String)
    (bs : List (List String)) (hplan : planBatches fsize items = .ok bs) :
    (arweaveBundleUpload net readMan fsize items).1 =
      seqExcept (bs.map (fun b => (runBatch net readMan b).1)) := by
  simp only [arweaveBundleUpload, hplan, List.map_map]
  rfl

theorem uploadP0_bundle_error (net : Phase → List String → Except String (List String))
    (uplSimple : String → Except String Unit) (readMan : String → Manifest)
    (fsize : String → Nat) (initC : Except String (String × String)) (rpc : String → Bool)
    (files : List String) (c₀ : Cache) (e : String)
    (hne : (getItemsNeedingUpload c₀.items files).isEmpty = false)
    (herr : (arweaveBundleUpload net readMan fsize
      (getItemsNeedingUpload c₀.items files)).1 = .error e) :
    (uploadP0 .arweaveNative net uplSimple readMan fsize initC rpc files c₀).1 =
      .error e := by
  simp [uploadP0, hne, herr]

theorem uploadP0_ok_bundle (net : Phase → List String → Except String (List String))
    (uplSimple : String → Except String Unit) (readMan : String → Manifest)
    (fsize : String → Nat) (initC : Except String (String × String)) (rpc : String → Bool)
    (files : List String) (c₀ : Cache) (c' : Cache)
    (hne : (getItemsNeedingUpload c₀.items files).isEmpty = false)
    (hok : (uploadP0 .arweaveNative net uplSimple readMan fsize initC rpc files c₀).1 =
      .ok c') :
    ∃ v, (arweaveBundleUpload net readMan fsize
      (getItemsNeedingUpload c₀.items files)).1 = .ok v := by
  cases hbu : (arweaveBundleUpload net readMan fsize
      (getItemsNeedingUpload c₀.items files)).1 with
  | error e =>
    rw [uploadP0_bundle_error net uplSimple readMan fsize initC rpc files c₀ e hne hbu] at hok
    exact absurd hok (by simp)
  | ok v => exact ⟨v, rfl⟩

/-- C2: in the bundle path, if the manifest-phase upload of a batch fails
after its image phase succeeded, the whole run rejects — so no item of
that batch (or any other) acquires a link in the durable cache; and
conversely an item can only be recorded at all when both bundle phases of
every planned batch succeeded. -/
theorem bundle_all_or_nothing :
    (∀ (net : Phase → List String → Except String (List String))
        (uplSimple : String → Except String Unit) (readMan : String → Manifest)
        (fsize : String → Nat) (initC : Except String (String × String))
        (rpc : String → Bool) (files : List String) (c₀ : Cache)
        (bs : List (List String)) (b : List String) (ids : List String) (e : String),
      planBatches fsize (getItemsNeedingUpload c₀.items files) = .ok bs →
      b ∈ bs → net Phase.image b = .ok ids → net Phase.manifest b = .error e →
      (∃ e', (uploadP0 .arweaveNative net uplSimple readMan fsize initC rpc files c₀).1 =
        .error e') ∧
      (∀ idx, lookupItem (durableOf
          (uploadP0 .arweaveNative net uplSimple readMan fsize initC rpc files c₀).1
          c₀).items idx =
        lookupItem c₀.items idx)) ∧
    (∀ (net : Phase → List String → Except String (List String))
        (uplSimple : String → Except String Unit) (readMan : String → Manifest)
        (fsize : String → Nat) (initC : Except String (String × String))
        (rpc : String → Bool) (files : List String) (c₀ : Cache)
        (bs : List (List String)) (c' : Cache),
      planBatches fsize (getItemsNeedingUpload c₀.items files) = .ok bs →
      (uploadP0 .arweaveNative net uplSimple readMan fsize initC rpc files c₀).1 = .ok c' →
      ∀ b' ∈ bs, (∃ w, net Phase.image b' = .ok w) ∧ (∃ w, net Phase.manifest b' = .ok w)) := by
  constructor
  · intro net uplSimple readMan fsize initC rpc files c₀ bs b ids e hplan hb himg hman
    have hne : (getItemsNeedingUpload c₀.items files).isEmpty = false := by
      cases hl : getItemsNeedingUpload c₀.items files with
      | nil =>
        rw [hl] at hplan
        have : bs = [] := by
          have h0 : planBatches fsize [] = .ok ([] : List (List String)) := rfl
          rw [h0] at hplan
          exact (Except.ok.injEq _ _).mp hplan.symm |>.symm ▸ rfl
        subst this
        simp at hb
      | cons a as => simp
    have hmem : Except.error e ∈ bs.map (fun b => (runBatch net readMan b).1) := by
      have := runBatch_fst_error net readMan b ids e himg hman
      exact this ▸ List.mem_map_of_mem _ hb
    obtain ⟨e', he'⟩ := seqExcept_error _ e hmem
    rw [← arweaveBundleUpload_fst net readMan fsize _ bs hplan] at he'
    have herr := uploadP0_bundle_error net uplSimple readMan fsize initC rpc files c₀ e' hne he'
    refine ⟨⟨e', herr⟩, ?_⟩
    intro idx
    rw [herr]
    rfl
  · intro net uplSimple readMan fsize initC rpc files c₀ bs c' hplan hok b' hb'
    cases hne : (getItemsNeedingUpload c₀.items files).isEmpty with
    | true =>
      have hl : getItemsNeedingUpload c₀.items files = [] := List.isEmpty_iff.mp hne
      rw [hl] at hplan
      have h0 : planBatches fsize [] = .ok ([] : List (List String)) := rfl
      rw [h0] at hplan
      have : ([] : List (List String)) = bs := (Except.ok.injEq _ _).mp hplan
      rw [← this] at hb'
      simp at hb'
    | false =>
      obtain ⟨v, hv⟩ := uploadP0_ok_bundle net uplSimple readMan fsize initC rpc
        files c₀ c' hne hok
      rw [arweaveBundleUpload_fst net readMan fsize _ bs hplan] at hv
      obtain ⟨x, hx⟩ := seqExcept_ok _ v hv _ (List.mem_map_of_mem _ hb')
      exact runBatch_fst_ok net readMan b' x hx

/-- Witness: the all-or-nothing theorem at a one-item, one-batch run
whose image phase succeeds and whose manifest phase fails. -/
theorem bundle_all_or_nothing_witness :
    (∃ e', (uploadP0 .arweaveNative
      (fun ph _ => match ph with
        | Phase.image => .ok ["tx"]
        | Phase.manifest => .error "manifest bundle failed")
      (fun _ => .ok ()) (fun _ => ⟨"n", "s", 0, [], "", []⟩) (fun _ => 10)
      (.ok ("u", "c")) (fun _ => true) ["0.png"] ⟨⟨none, none⟩, [], none⟩).1 =
        .error e') ∧
    (∀ idx, lookupItem (durableOf (uploadP0 .arweaveNative
      (fun ph _ => match ph with
        | Phase.image => .ok ["tx"]
        | Phase.manifest => .error "manifest bundle failed")
      (fun _ => .ok ()) (fun _ => ⟨"n", "s", 0, [], "", []⟩) (fun _ => 10)
      (.ok ("u", "c")) (fun _ => true) ["0.png"] ⟨⟨none, none⟩, [], none⟩).1
      ⟨⟨none, none⟩, [], none⟩).items idx =
      lookupItem (⟨⟨none, none⟩, [], none⟩ : Cache).items idx) :=
  bundle_all_or_nothing.1
    (fun ph _ => match ph with
      | Phase.image => .ok ["tx"]
      | Phase.manifest => .error "manifest bundle failed")
    (fun _ => .ok ()) (fun _ => ⟨"n", "s", 0, [], "", []⟩) (fun _ => 10)
    (.ok ("u", "c")) (fun _ => true) ["0.png"] ⟨⟨none, none⟩, [], none⟩
    [["0"]] ["0"] ["tx"] "manifest bundle failed" rfl (by decide) rfl rfl

/-! ### Cache invariant lemmas -/

theorem setItem_mem (l : List (String × CacheEntry)) (k : String) (e : CacheEntry) :
    ∀ p ∈ setItem l k e, p ∈ l ∨ p = (k, e) := by
  induction l with
  | nil => intro p hp; simp [setItem] at hp; exact Or.inr hp
  | cons q rest ih =>
    obtain ⟨k₀, e₀⟩ := q
    intro p hp
    by_cases h0 : k₀ = k
    · subst h0
      have hset : setItem ((k₀, e₀) :: rest) k₀ e = (k₀, e) :: rest := by
        simp [setItem]
      rw [hset] at hp
      rcases List.mem_cons.mp hp with rfl | hp
      · exact Or.inr rfl
      · exact Or.inl (List.mem_cons_of_mem _ hp)
    · have hset : setItem ((k₀, e₀) :: rest) k e = (k₀, e₀) :: setItem rest k e := by
        simp [setItem, h0]
      rw [hset] at hp
      rcases List.mem_cons.mp hp with rfl | hp
      · exact Or.inl (List.mem_cons_self _ _)
      · rcases ih p hp with h | h
        · exact Or.inl (List.mem_cons_of_mem _ h)
        · exact Or.inr h

theorem saveManifestStep_inv (links indices : List String) (c : Cache) (p : Nat × Manifest)
    (h : cacheInv c) : cacheInv (saveManifestStep links indices c p) := by
  intro q hq hon
  simp only [saveManifestStep] at hq
  rcases setItem_mem _ _ _ q hq with hm | hm
  · exact h q hm hon
  · rw [hm] at hon
    simp at hon

theorem saveManifestStep_keys (links indices : List String) (c : Cache) (p : Nat × Manifest) :
    keysPreserved c (saveManifestStep links indices c p) := by
  intro k hk
  simp only [saveManifestStep]
  exact setItem_keys_sup _ _ _ _ hk

theorem saveManifests_fold_inv (links indices : List String) (ps : List (Nat × Manifest)) :
    ∀ (c : Cache), cacheInv c → cacheInv (ps.foldl (saveManifestStep links indices) c) := by
  induction ps with
  | nil => intro c h; exact h
  | cons p ps ih =>
    intro c h
    exact ih _ (saveManifestStep_inv links indices c p h)

theorem saveManifests_fold_keys (links indices : List String) (ps : List (Nat × Manifest)) :
    ∀ (c : Cache), keysPreserved c (ps.foldl (saveManifestStep links indices) c) := by
  induction ps with
  | nil => intro c k hk; exact hk
  | cons p ps ih =>
    intro c k hk
    exact ih _ k (saveManifestStep_keys links indices c p k hk)

theorem upload_one_item_items (upl : String → Except String String)
    (initC : Except String (String × String)) (wallet : String)
    (readMan : String → Manifest) (image : String) (i : Nat) (c : Cache)
    (b : Bool) (c' : Cache)
    (h : (upload_one_item upl initC wallet readMan image i c).1 = .ok (b, c')) :
    c'.items = c.items ∨
      ∃ l nm, (l == "") = false ∧
        c'.items = setItem c.items (fileStem image) ⟨some l, some nm, false⟩ := by
  simp only [upload_one_item] at h
  split at h
  · simp at h
    exact Or.inl (by rw [← h.2])
  · split at h
    · simp at h
    · rename_i c₁ heq
      have hc₁ : c₁.items = c.items := by
        split at heq
        · cases initC with
          | error e => simp at heq
          | ok p =>
            simp only [Except.ok.injEq] at heq
            rw [← heq]
        · simp only [Except.ok.injEq] at heq
          rw [← heq]
      split at h
      · simp at h
        exact Or.inl (by rw [← h.2, hc₁])
      · split at h
        · simp at h
          exact Or.inl (by rw [← h.2, hc₁])
        · rename_i l hupl
          split at h
          · simp at h
            exact Or.inl (by rw [← h.2, hc₁])
          · rename_i hne
            simp at h
            refine Or.inr ⟨l, (readMan (fileStem image)).name, ?_, ?_⟩
            · simpa using hne
            · rw [← h.2, hc₁]

theorem markOnChain_WF (c : Cache) (k : String) (hWF : cacheLinksWF c)
    (hk : k ∈ c.items.map Prod.fst) : cacheLinksWF (markOnChain c k) := by
  obtain ⟨e, he⟩ := mem_keys_lookup c.items k hk
  intro p hp
  simp only [markOnChain, he] at hp
  rcases setItem_mem _ _ _ p hp with hm | hm
  · exact hWF p hm
  · rw [hm]
    exact hWF (k, e) (lookupItem_mem _ _ _ he)

theorem markOnChain_keys (c : Cache) (k : String) : keysPreserved c (markOnChain c k) := by
  intro k' hk'
  unfold markOnChain
  cases h : lookupItem c.items k <;> exact setItem_keys_sup _ _ _ _ hk'

theorem foldl_mark_WF (keys : List String) (g : List Nat) :
    ∀ (c : Cache), cacheLinksWF c → (∀ i ∈ g, keyAt keys i ∈ c.items.map Prod.fst) →
      cacheLinksWF (g.foldl (fun acc i => markOnChain acc (keyAt keys i)) c) := by
  induction g with
  | nil => intro c h _; exact h
  | cons j js ih =>
    intro c h hmem
    simp only [List.foldl_cons]
    exact ih _ (markOnChain_WF c _ h (hmem j (List.mem_cons_self _ _)))
      (fun i hi => markOnChain_keys c (keyAt keys j) _ (hmem i (List.mem_cons_of_mem _ hi)))

theorem foldl_mark_keys (keys : List String) (g : List Nat) :
    ∀ (c : Cache), keysPreserved c (g.foldl (fun acc i => markOnChain acc (keyAt keys i)) c) := by
  induction g with
  | nil => intro c k hk; exact hk
  | cons j js ih =>
    intro c k hk
    simp only [List.foldl_cons]
    exact ih _ k (markOnChain_keys c (keyAt keys j) k hk)

theorem processGroup_WF (rpc : String → Bool) (keys : List String) (c : Cache) (g : List Nat)
    (hWF : cacheLinksWF c) (hmem : ∀ i ∈ g, keyAt keys i ∈ c.items.map Prod.fst) :
    cacheLinksWF (processGroup rpc keys c g).1 := by
  unfold processGroup
  by_cases hall : g.all (onChainAt c keys) = true
  · simp only [if_pos hall]
    exact hWF
  · simp only [if_neg hall]
    split
    · exact foldl_mark_WF keys g c hWF hmem
    · exact hWF

theorem processGroup_keys (rpc : String → Bool) (keys : List String) (c : Cache)
    (g : List Nat) : keysPreserved c (processGroup rpc keys c g).1 := by
  unfold processGroup
  by_cases hall : g.all (onChainAt c keys) = true
  · simp only [if_pos hall]
    intro k hk
    exact hk
  · simp only [if_neg hall]
    split
    · exact foldl_mark_keys keys g c
    · intro k hk
      exact hk

theorem registryFold_WF (rpc : String → Bool) (keys : List String) (gs : List (List Nat)) :
    ∀ (init : Cache × List (String × Bool)),
      cacheLinksWF init.1 →
      (∀ g ∈ gs, ∀ i ∈ g, keyAt keys i ∈ init.1.items.map Prod.fst) →
      cacheLinksWF (gs.foldl (registryStep rpc keys) init).1 := by
  induction gs with
  | nil => intro init h _; exact h
  | cons g gs ih =>
    intro init h hmem
    simp only [List.foldl_cons]
    refine ih _ ?_ ?_
    · exact processGroup_WF rpc keys init.1 g h (hmem g (List.mem_cons_self _ _))
    · intro g' hg' i hi
      exact processGroup_keys rpc keys init.1 g _ (hmem g' (List.mem_cons_of_mem _ hg') i hi)

theorem registryFold_keys (rpc : String → Bool) (keys : List String) (gs : List (List Nat)) :
    ∀ (init : Cache × List (String × Bool)),
      keysPreserved init.1 (gs.foldl (registryStep rpc keys) init).1 := by
  induction gs with
  | nil => intro init k hk; exact hk
  | cons g gs ih =>
    intro init k hk
    simp only [List.foldl_cons]
    exact ih _ k (processGroup_keys rpc keys init.1 g k hk)

theorem registryPhase_WF (rpc : String → Bool) (c : Cache) (hWF : cacheLinksWF c) :
    cacheLinksWF (registryPhase rpc c).1 := by
  unfold registryPhase
  exact registryFold_WF rpc _ _ (c, []) hWF
    (fun g hg i hi => keyAt_mem _ i (innerGroups_mem_lt _ g i hg hi))

theorem registryPhase_keys (rpc : String → Bool) (c : Cache) :
    keysPreserved c (registryPhase rpc c).1 := by
  unfold registryPhase
  exact registryFold_keys rpc _ _ (c, [])

/-- C9: the cache invariant (every `onChain` entry has a present,
non-empty link) is preserved by every cache-mutating operation of a run,
and the cache is append/update-only: `saveManifestsWithLink` and
`upload_one_item` preserve the invariant outright (they only write
`onChain: false` entries), the registry phase preserves it on every cache
whose entries all carry truthy links (the only caches this pipeline ever
persists, since entries are only created together with a link), and no
operation ever removes a key. -/
theorem cache_invariant_preserved :
    (∀ (c : Cache) (ms : List Manifest) (links indices : List String),
      cacheInv c → cacheInv (saveManifestsWithLink c ms links indices)) ∧
    (∀ (c : Cache) (ms : List Manifest) (links indices : List String),
      keysPreserved c (saveManifestsWithLink c ms links indices)) ∧
    (∀ (upl : String → Except String String) (initC : Except String (String × String))
        (wallet : String) (readMan : String → Manifest) (image : String) (i : Nat)
        (c : Cache) (b : Bool) (c' : Cache),
      cacheInv c →
      (upload_one_item upl initC wallet readMan image i c).1 = .ok (b, c') →
      cacheInv c' ∧ keysPreserved c c') ∧
    (∀ (rpc : String → Bool) (c : Cache),
      cacheLinksWF c → cacheInv (registryPhase rpc c).1) ∧
    (∀ (rpc : String → Bool) (c : Cache), keysPreserved c (registryPhase rpc c).1) := by
  refine ⟨?_, ?_, ?_, ?_, registryPhase_keys⟩
  · intro c ms links indices h
    exact saveManifests_fold_inv links indices ms.enum c h
  · intro c ms links indices
    exact saveManifests_fold_keys links indices ms.enum c
  · intro upl initC wallet readMan image i c b c' hInv h
    rcases upload_one_item_items upl initC wallet readMan image i c b c' h with
      hsame | ⟨l, nm, hl, hset⟩
    · constructor
      · intro p hp hon
        rw [hsame] at hp
        exact hInv p hp hon
      · intro k hk
        rw [hsame]
        exact hk
    · constructor
      · intro p hp hon
        rw [hset] at hp
        rcases setItem_mem _ _ _ p hp with hm | hm
        · exact hInv p hm hon
        · rw [hm] at hon
          simp at hon
      · intro k hk
        rw [hset]
        exact setItem_keys_sup _ _ _ _ hk
  · intro rpc c hWF
    intro p hp _
    exact registryPhase_WF rpc c hWF p hp

/-- Witness: the invariant theorem applied at concrete caches and a
concrete successful single-item upload. -/
theorem cache_invariant_preserved_witness :
    cacheInv (saveManifestsWithLink ⟨⟨none, none⟩, [], none⟩ [⟨"n", "s", 0, [], "", []⟩]
      ["https://arweave.net/t"] ["0"]) ∧
    (cacheInv (⟨⟨some "u", none⟩, [("1", ⟨some "L", some "n", false⟩)], some "w"⟩ : Cache) ∧
      keysPreserved ⟨⟨some "u", none⟩, [], none⟩
        ⟨⟨some "u", none⟩, [("1", ⟨some "L", some "n", false⟩)], some "w"⟩) ∧
    cacheInv (registryPhase (fun _ => true)
      ⟨⟨none, none⟩, [("0", ⟨some "L", some "n", false⟩)], none⟩).1 :=
  ⟨cache_invariant_preserved.1 ⟨⟨none, none⟩, [], none⟩ [⟨"n", "s", 0, [], "", []⟩]
      ["https://arweave.net/t"] ["0"]
      (fun p hp _ => absurd hp (List.not_mem_nil p)),
   cache_invariant_preserved.2.2.1 (fun _ => .ok "L") (.error "x") "w"
      (fun _ => ⟨"n", "s", 0, [], "", []⟩) "1.png" 1 ⟨⟨some "u", none⟩, [], none⟩ true
      ⟨⟨some "u", none⟩, [("1", ⟨some "L", some "n", false⟩)], some "w"⟩
      (fun p hp _ => absurd hp (List.not_mem_nil p)) rfl,
   cache_invariant_preserved.2.2.2.1 (fun _ => true)
      ⟨⟨none, none⟩, [("0", ⟨some "L", some "n", false⟩)], none⟩
      (by intro p hp; rw [List.mem_singleton] at hp; subst hp; rfl)⟩

/-! ### Count-bounded pipeline lemmas -/

theorem upload_one_item_spec (upl : String → Except String String)
    (initC : Except String (String × String)) (wallet : String)
    (readMan : String → Manifest) (image : String) (i : Nat) (c : Cache)
    (hP : c.program.uuid.isSome = true ∨ ∃ p, initC = .ok p) :
    ∃ b c' att, upload_one_item upl initC wallet readMan image i c = (.ok (b, c'), att) ∧
      (c'.program.uuid.isSome = true ∨ ∃ p, initC = .ok p) ∧
      b = att.all (fun s => exceptOkB (upl s)) := by
  by_cases hskip : (linkTruthy ((lookupItem c.items (fileStem image)).bind (fun x => x.link)) &&
      c.program.uuid.isSome) = true
  · exact ⟨true, c, [], by simp only [upload_one_item, if_pos hskip], hP, rfl⟩
  · by_cases hini : (i = 0 && c.program.uuid.isNone) = true
    · rcases hP with hu | ⟨p, hip⟩
      · exfalso
        rw [Bool.and_eq_true] at hini
        rw [Option.isNone_iff_eq_none] at hini
        rw [hini.2] at hu
        simp at hu
      · by_cases hlink : linkTruthy ((lookupItem c.items (fileStem image)).bind
            (fun x => x.link)) = true
        · refine ⟨true, ⟨⟨some p.1, some p.2⟩, c.items, c.authority⟩, [], ?_, Or.inl rfl, rfl⟩
          simp only [upload_one_item, if_neg hskip, if_pos hini, hip, if_pos hlink]
        · cases hupl : upl (fileStem image) with
          | error e =>
            refine ⟨false, ⟨⟨some p.1, some p.2⟩, c.items, c.authority⟩, [fileStem image],
              ?_, Or.inl rfl, by simp [hupl, exceptOkB]⟩
            simp only [upload_one_item, if_neg hskip, if_pos hini, hip, if_neg hlink, hupl]
          | ok l =>
            by_cases hl : (l == "") = true
            · refine ⟨true, ⟨⟨some p.1, some p.2⟩, c.items, c.authority⟩, [fileStem image],
                ?_, Or.inl rfl, by simp [hupl, exceptOkB]⟩
              simp only [upload_one_item, if_neg hskip, if_pos hini, hip, if_neg hlink, hupl,
                if_pos hl]
            · refine ⟨true, ⟨⟨some p.1, some p.2⟩,
                setItem c.items (fileStem image)
                  ⟨some l, some (readMan (fileStem image)).name, false⟩, some wallet⟩,
                [fileStem image], ?_, Or.inl rfl, by simp [hupl, exceptOkB]⟩
              simp only [upload_one_item, if_neg hskip, if_pos hini, hip, if_neg hlink, hupl,
                if_neg hl]
    · by_cases hlink : linkTruthy ((lookupItem c.items (fileStem image)).bind
          (fun x => x.link)) = true
      · exact ⟨true, c, [], by
          simp only [upload_one_item, if_neg hskip, if_neg hini, if_pos hlink], hP, rfl⟩
      · cases hupl : upl (fileStem image) with
        | error e =>
          refine ⟨false, c, [fileStem image], ?_, hP, by simp [hupl, exceptOkB]⟩
          simp only [upload_one_item, if_neg hskip, if_neg hini, if_neg hlink, hupl]
        | ok l =>
          by_cases hl : (l == "") = true
          · refine ⟨true, c, [fileStem image], ?_, hP, by simp [hupl, exceptOkB]⟩
            simp only [upload_one_item, if_neg hskip, if_neg hini, if_neg hlink, hupl,
              if_pos hl]
          · refine ⟨true, ⟨c.program,
              setItem c.items (fileStem image)
                ⟨some l, some (readMan (fileStem image)).name, false⟩, some wallet⟩,
              [fileStem image], ?_, ?_, by simp [hupl, exceptOkB]⟩
            · simp only [upload_one_item, if_neg hskip, if_neg hini, if_neg hlink, hupl,
                if_neg hl]
            · rcases hP with hu | hini'
              · exact Or.inl hu
              · exact Or.inr hini'

theorem itemsWindow_spec (upl : String → Except String String)
    (initC : Except String (String × String)) (wallet : String)
    (readMan : String → Manifest) (w : List (Nat × String)) :
    ∀ (c : Cache), (c.program.uuid.isSome = true ∨ ∃ p, initC = .ok p) →
      ∃ bs c' att, itemsWindow upl initC wallet readMan w c = (.ok (bs, c'), att) ∧
        (c'.program.uuid.isSome = true ∨ ∃ p, initC = .ok p) ∧
        bs.all id = att.all (fun s => exceptOkB (upl s)) := by
  induction w with
  | nil => intro c hP; exact ⟨[], c, [], rfl, hP, rfl⟩
  | cons q rest ih =>
    intro c hP
    obtain ⟨i, f⟩ := q
    obtain ⟨b, c₁, att₁, hstep, hP₁, hb⟩ :=
      upload_one_item_spec upl initC wallet readMan f i c hP
    obtain ⟨bs, c', att₂, hrest, hP', hbs⟩ := ih c₁ hP₁
    refine ⟨b :: bs, c', att₁ ++ att₂, ?_, hP', ?_⟩
    · simp only [itemsWindow, hstep, hrest]
    · simp only [List.all_cons, List.all_append, id, hb, hbs]

theorem windowsLoop_spec (upl : String → Except String String)
    (initC : Except String (String × String)) (wallet : String)
    (readMan : String → Manifest) (ws : List (List (Nat × String))) :
    ∀ (flag : Bool) (c : Cache), (c.program.uuid.isSome = true ∨ ∃ p, initC = .ok p) →
      ∃ f c' att, windowsLoop upl initC wallet readMan ws flag c = (.ok (f, c'), att) ∧
        (c'.program.uuid.isSome = true ∨ ∃ p, initC = .ok p) ∧
        f = (flag && att.all (fun s => exceptOkB (upl s))) := by
  induction ws with
  | nil => intro flag c hP; exact ⟨flag, c, [], rfl, hP, by simp⟩
  | cons w ws ih =>
    intro flag c hP
    obtain ⟨bs, c₁, att₁, hstep, hP₁, hbs⟩ := itemsWindow_spec upl initC wallet readMan w c hP
    obtain ⟨f, c', att₂, hrest, hP', hf⟩ := ih (bs.all id && flag) c₁ hP₁
    refine ⟨f, c', att₁ ++ att₂, ?_, hP', ?_⟩
    · simp only [windowsLoop, hstep, hrest]
    · rw [hf, hbs]
      cases flag <;> simp [List.all_append, Bool.and_comm]

/-- C5: with the one-time registry initialisation available (an existing
uuid or a successful init), the count-bounded pipeline never raises: it
returns an aggregate flag that is true iff every storage upload it
attempted succeeded and every registry write it issued succeeded. -/
theorem aggregate_flag_iff (storage : CStorage) (upl : String → Except String String)
    (initC : Except String (String × String)) (rpc : String → Bool)
    (readMan : String → Manifest) (wallet : String) (files : List String) (c₀ : Cache)
    (hinit : c₀.program.uuid.isSome = true ∨ ∃ p, initC = .ok p) :
    ∃ f c', (uploadCmd storage upl initC rpc readMan wallet files c₀).1 = .ok (f, c') ∧
      (f = true ↔
        (∀ s ∈ (uploadCmd storage upl initC rpc readMan wallet files c₀).2.uploadAttempts,
          exceptOkB (upl s) = true) ∧
        (∀ q ∈ (uploadCmd storage upl initC rpc readMan wallet files c₀).2.rpcCalls,
          q.2 = true)) := by
  obtain ⟨f1, c₁, att, hloop, hP₁, hf⟩ := windowsLoop_spec upl initC wallet readMan
    (chunks (BATCH_SIZE storage) (computeImages files (c₀.items.map Prod.fst)).enum)
    true c₀ hinit
  refine ⟨f1 && (registryPhase rpc c₁).2.all (fun p => p.2), (registryPhase rpc c₁).1, ?_, ?_⟩
  · simp only [uploadCmd, hloop]
  · simp only [uploadCmd, hloop]
    rw [hf]
    simp only [Bool.true_and, Bool.and_eq_true, List.all_eq_true]

/-- Witness: the aggregate-flag theorem at a concrete one-item run. -/
theorem aggregate_flag_iff_witness :
    ∃ f c', (uploadCmd .aws (fun _ => .ok "L") (.error "init") (fun _ => true)
      (fun _ => ⟨"n", "s", 0, [], "", []⟩) "w" ["1.png"]
      ⟨⟨some "u", none⟩, [], none⟩).1 = .ok (f, c') ∧
      (f = true ↔
        (∀ s ∈ (uploadCmd .aws (fun _ => .ok "L") (.error "init") (fun _ => true)
          (fun _ => ⟨"n", "s", 0, [], "", []⟩) "w" ["1.png"]
          ⟨⟨some "u", none⟩, [], none⟩).2.uploadAttempts,
          exceptOkB ((fun _ => (.ok "L" : Except String String)) s) = true) ∧
        (∀ q ∈ (uploadCmd .aws (fun _ => .ok "L") (.error "init") (fun _ => true)
          (fun _ => ⟨"n", "s", 0, [], "", []⟩) "w" ["1.png"]
          ⟨⟨some "u", none⟩, [], none⟩).2.rpcCalls, q.2 = true)) :=
  aggregate_flag_iff .aws (fun _ => .ok "L") (.error "init") (fun _ => true)
    (fun _ => ⟨"n", "s", 0, [], "", []⟩) "w" ["1.png"]
    ⟨⟨some "u", none⟩, [], none⟩ (Or.inl rfl)

theorem isNone_false_of_isSome (o : Option String) (h : o.isSome = true) :
    o.isNone = false := by
  rcases o with _ | u
  · simp at h
  · rfl

theorem upload_one_item_fails (upl : String → Except String String)
    (initC : Except String (String × String)) (wallet : String)
    (readMan : String → Manifest) (image : String) (i : Nat) (c : Cache) (e : String)
    (hu : c.program.uuid.isSome = true)
    (hnl : linkTruthy ((lookupItem c.items (fileStem image)).bind (fun x => x.link)) = false)
    (hupl : upl (fileStem image) = .error e) :
    upload_one_item upl initC wallet readMan image i c = (.ok (false, c), [fileStem image]) := by
  have hskip : ¬(linkTruthy ((lookupItem c.items (fileStem image)).bind (fun x => x.link)) &&
      c.program.uuid.isSome) = true := by
    rw [hnl]
    simp
  have hini : ¬(i = 0 && c.program.uuid.isNone) = true := by
    rw [isNone_false_of_isSome _ hu]
    simp
  have hlink : ¬ linkTruthy ((lookupItem c.items (fileStem image)).bind
      (fun x => x.link)) = true := by
    rw [hnl]
    simp
  simp only [upload_one_item, if_neg hskip, if_neg hini, if_neg hlink, hupl]

theorem upload_one_item_records (upl : String → Except String String)
    (initC : Except String (String × String)) (wallet : String)
    (readMan : String → Manifest) (image : String) (i : Nat) (c : Cache) (l : String)
    (hu : c.program.uuid.isSome = true)
    (hnl : linkTruthy ((lookupItem c.items (fileStem image)).bind (fun x => x.link)) = false)
    (hupl : upl (fileStem image) = .ok l) (hl : (l == "") = false) :
    upload_one_item upl initC wallet readMan image i c =
      (.ok (true, ⟨c.program,
        setItem c.items (fileStem image)
          ⟨some l, some (readMan (fileStem image)).name, false⟩, some wallet⟩),
       [fileStem image]) := by
  have hskip : ¬(linkTruthy ((lookupItem c.items (fileStem image)).bind (fun x => x.link)) &&
      c.program.uuid.isSome) = true := by
    rw [hnl]
    simp
  have hini : ¬(i = 0 && c.program.uuid.isNone) = true := by
    rw [isNone_false_of_isSome _ hu]
    simp
  have hlink : ¬ linkTruthy ((lookupItem c.items (fileStem image)).bind
      (fun x => x.link)) = true := by
    rw [hnl]
    simp
  have hl' : ¬(l == "") = true := by
    rw [hl]
    simp
  simp only [upload_one_item, if_neg hskip, if_neg hini, if_neg hlink, hupl, if_neg hl']

theorem markOnChain_link_view (c : Cache) (k₀ : String) (hk : k₀ ∈ c.items.map Prod.fst)
    (k : String) :
    (lookupItem (markOnChain c k₀).items k).bind (fun e => e.link) =
      (lookupItem c.items k).bind (fun e => e.link) := by
  obtain ⟨e, he⟩ := mem_keys_lookup c.items k₀ hk
  simp only [markOnChain, he, lookupItem_setItem]
  by_cases hkk : k = k₀
  · subst hkk
    simp [he]
  · simp [hkk]

theorem foldl_mark_link_view (keys : List String) (g : List Nat) :
    ∀ (c : Cache) (k : String), (∀ i ∈ g, keyAt keys i ∈ c.items.map Prod.fst) →
      (lookupItem (g.foldl (fun acc i => markOnChain acc (keyAt keys i)) c).items k).bind
          (fun e => e.link) =
        (lookupItem c.items k).bind (fun e => e.link) := by
  induction g with
  | nil => intro c k _; rfl
  | cons j js ih =>
    intro c k hmem
    simp only [List.foldl_cons]
    rw [ih _ k (fun i hi => markOnChain_keys c (keyAt keys j) _
      (hmem i (List.mem_cons_of_mem _ hi)))]
    exact markOnChain_link_view c (keyAt keys j) (hmem j (List.mem_cons_self _ _)) k

theorem processGroup_link_view (rpc : String → Bool) (keys : List String) (c : Cache)
    (g : List Nat) (hmem : ∀ i ∈ g, keyAt keys i ∈ c.items.map Prod.fst) (k : String) :
    (lookupItem (processGroup rpc keys c g).1.items k).bind (fun e => e.link) =
      (lookupItem c.items k).bind (fun e => e.link) := by
  unfold processGroup
  by_cases hall : g.all (onChainAt c keys) = true
  · simp only [if_pos hall]
  · simp only [if_neg hall]
    split
    · exact foldl_mark_link_view keys g c k hmem
    · rfl

theorem registryFold_link_view (rpc : String → Bool) (keys : List String)
    (gs : List (List Nat)) :
    ∀ (init : Cache × List (String × Bool)) (k : String),
      (∀ g ∈ gs, ∀ i ∈ g, keyAt keys i ∈ init.1.items.map Prod.fst) →
      (lookupItem (gs.foldl (registryStep rpc keys) init).1.items k).bind (fun e => e.link) =
        (lookupItem init.1.items k).bind (fun e => e.link) := by
  induction gs with
  | nil => intro init k _; rfl
  | cons g gs ih =>
    intro init k hmem
    simp only [List.foldl_cons]
    rw [ih _ k (fun g' hg' i hi =>
      processGroup_keys rpc keys init.1 g _ (hmem g' (List.mem_cons_of_mem _ hg') i hi))]
    exact processGroup_link_view rpc keys init.1 g (hmem g (List.mem_cons_self _ _)) k

theorem registryPhase_link_view (rpc : String → Bool) (c : Cache) (k : String) :
    (lookupItem (registryPhase rpc c).1.items k).bind (fun e => e.link) =
      (lookupItem c.items k).bind (fun e => e.link) := by
  unfold registryPhase
  exact registryFold_link_view rpc _ _ (c, []) k
    (fun g hg i hi => keyAt_mem _ i (innerGroups_mem_lt _ g i hg hi))

/-- C4: in the count-bounded path with the arweave backend (window of 5),
when five fresh items are processed and exactly one of them — the third —
fails its storage upload while the others return non-empty links, the
other four items end the run with truthy links recorded in the cache, the
run continues to completion, and the aggregate success flag is false. -/
theorem partial_failure_isolated (upl : String → Except String String)
    (initC : Except String (String × String)) (rpc : String → Bool)
    (readMan : String → Manifest) (wallet : String) (files : List String) (c₀ : Cache)
    (f1 f2 f3 f4 f5 u e3 : String)
    (himg : computeImages files (c₀.items.map Prod.fst) = [f1, f2, f3, f4, f5])
    (hnodup : ([f1, f2, f3, f4, f5].map fileStem).Nodup)
    (hu : c₀.program.uuid = some u)
    (hnolink : ∀ f ∈ [f1, f2, f3, f4, f5],
      linkTruthy ((lookupItem c₀.items (fileStem f)).bind (fun x => x.link)) = false)
    (h3 : upl (fileStem f3) = .error e3)
    (hok : ∀ f ∈ [f1, f2, f4, f5], ∃ l, upl (fileStem f) = .ok l ∧ (l == "") = false) :
    ∃ c', (uploadCmd .arweave upl initC rpc readMan wallet files c₀).1 = .ok (false, c') ∧
      ∀ f ∈ [f1, f2, f4, f5],
        linkTruthy ((lookupItem c'.items (fileStem f)).bind (fun x => x.link)) = true := by
  obtain ⟨l1, hupl1, hl1⟩ := hok f1 (by simp)
  obtain ⟨l2, hupl2, hl2⟩ := hok f2 (by simp)
  obtain ⟨l4, hupl4, hl4⟩ := hok f4 (by simp)
  obtain ⟨l5, hupl5, hl5⟩ := hok f5 (by simp)
  have hnd : [fileStem f1, fileStem f2, fileStem f3, fileStem f4, fileStem f5].Nodup := by
    simpa using hnodup
  rw [List.nodup_cons] at hnd
  obtain ⟨hn1, hnd⟩ := hnd
  rw [List.nodup_cons] at hnd
  obtain ⟨hn2, hnd⟩ := hnd
  rw [List.nodup_cons] at hnd
  obtain ⟨hn3, hnd⟩ := hnd
  rw [List.nodup_cons] at hnd
  obtain ⟨hn4, -⟩ := hnd
  have h12 : fileStem f1 ≠ fileStem f2 := fun he => hn1 (by rw [he]; simp)
  have h13 : fileStem f1 ≠ fileStem f3 := fun he => hn1 (by rw [he]; simp)
  have h14 : fileStem f1 ≠ fileStem f4 := fun he => hn1 (by rw [he]; simp)
  have h15 : fileStem f1 ≠ fileStem f5 := fun he => hn1 (by rw [he]; simp)
  have h23 : fileStem f2 ≠ fileStem f3 := fun he => hn2 (by rw [he]; simp)
  have h24 : fileStem f2 ≠ fileStem f4 := fun he => hn2 (by rw [he]; simp)
  have h25 : fileStem f2 ≠ fileStem f5 := fun he => hn2 (by rw [he]; simp)
  have h45 : fileStem f4 ≠ fileStem f5 := fun he => hn4 (by rw [he]; simp)
  have husome : c₀.program.uuid.isSome = true := by rw [hu]; rfl
  have e1step := upload_one_item_records upl initC wallet readMan f1 0 c₀ l1
    husome (hnolink f1 (by simp)) hupl1 hl1
  have e2step := upload_one_item_records upl initC wallet readMan f2 1
    ⟨c₀.program, setItem c₀.items (fileStem f1)
      ⟨some l1, some (readMan (fileStem f1)).name, false⟩, some wallet⟩ l2
    husome
    (by
      simp only [lookupItem_setItem, if_neg (Ne.symm h12)]
      exact hnolink f2 (by simp))
    hupl2 hl2
  have e3step := upload_one_item_fails upl initC wallet readMan f3 2
    ⟨c₀.program, setItem (setItem c₀.items (fileStem f1)
        ⟨some l1, some (readMan (fileStem f1)).name, false⟩) (fileStem f2)
      ⟨some l2, some (readMan (fileStem f2)).name, false⟩, some wallet⟩ e3
    husome
    (by
      simp only [lookupItem_setItem, if_neg (Ne.symm h23), if_neg (Ne.symm h13)]
      exact hnolink f3 (by simp))
    h3
  have e4step := upload_one_item_records upl initC wallet readMan f4 3
    ⟨c₀.program, setItem (setItem c₀.items (fileStem f1)
        ⟨some l1, some (readMan (fileStem f1)).name, false⟩) (fileStem f2)
      ⟨some l2, some (readMan (fileStem f2)).name, false⟩, some wallet⟩ l4
    husome
    (by
      simp only [lookupItem_setItem, if_neg (Ne.symm h24), if_neg (Ne.symm h14)]
      exact hnolink f4 (by simp))
    hupl4 hl4
  have e5step := upload_one_item_records upl initC wallet readMan f5 4
    ⟨c₀.program, setItem (setItem (setItem c₀.items (fileStem f1)
          ⟨some l1, some (readMan (fileStem f1)).name, false⟩) (fileStem f2)
        ⟨some l2, some (readMan (fileStem f2)).name, false⟩) (fileStem f4)
      ⟨some l4, some (readMan (fileStem f4)).name, false⟩, some wallet⟩ l5
    husome
    (by
      simp only [lookupItem_setItem, if_neg (Ne.symm h45), if_neg (Ne.symm h25),
        if_neg (Ne.symm h15)]
      exact hnolink f5 (by simp))
    hupl5 hl5
  have hwin : itemsWindow upl initC wallet readMan
      [(0, f1), (1, f2), (2, f3), (3, f4), (4, f5)] c₀ =
      (.ok ([true, true, false, true, true],
        ⟨c₀.program, setItem (setItem (setItem (setItem c₀.items (fileStem f1)
              ⟨some l1, some (readMan (fileStem f1)).name, false⟩) (fileStem f2)
            ⟨some l2, some (readMan (fileStem f2)).name, false⟩) (fileStem f4)
          ⟨some l4, some (readMan (fileStem f4)).name, false⟩) (fileStem f5)
          ⟨some l5, some (readMan (fileStem f5)).name, false⟩, some wallet⟩),
       [fileStem f1, fileStem f2, fileStem f3, fileStem f4, fileStem f5]) := by
    simp only [itemsWindow, e1step, e2step, e3step, e4step, e5step, List.cons_append,
      List.nil_append]
  have hwindows : chunks (BATCH_SIZE CStorage.arweave) (List.enum [f1, f2, f3, f4, f5]) =
      [[(0, f1), (1, f2), (2, f3), (3, f4), (4, f5)]] := rfl
  have hloop : windowsLoop upl initC wallet readMan
      [[(0, f1), (1, f2), (2, f3), (3, f4), (4, f5)]] true c₀ =
      (.ok (false,
        ⟨c₀.program, setItem (setItem (setItem (setItem c₀.items (fileStem f1)
              ⟨some l1, some (readMan (fileStem f1)).name, false⟩) (fileStem f2)
            ⟨some l2, some (readMan (fileStem f2)).name, false⟩) (fileStem f4)
          ⟨some l4, some (readMan (fileStem f4)).name, false⟩) (fileStem f5)
          ⟨some l5, some (readMan (fileStem f5)).name, false⟩, some wallet⟩),
       [fileStem f1, fileStem f2, fileStem f3, fileStem f4, fileStem f5]) := by
    simp only [windowsLoop, hwin, List.append_nil]
    rfl
  refine ⟨(registryPhase rpc
      ⟨c₀.program, setItem (setItem (setItem (setItem c₀.items (fileStem f1)
            ⟨some l1, some (readMan (fileStem f1)).name, false⟩) (fileStem f2)
          ⟨some l2, some (readMan (fileStem f2)).name, false⟩) (fileStem f4)
        ⟨some l4, some (readMan (fileStem f4)).name, false⟩) (fileStem f5)
        ⟨some l5, some (readMan (fileStem f5)).name, false⟩, some wallet⟩).1, ?_, ?_⟩
  · simp only [uploadCmd, himg, hwindows, hloop]
    simp
  · intro f hf
    rw [registryPhase_link_view]
    rcases (by simpa using hf : f = f1 ∨ f = f2 ∨ f = f4 ∨ f = f5) with rfl | rfl | rfl | rfl
    · simp only [lookupItem_setItem, if_neg h15, if_neg h14, if_neg h12, if_pos rfl]
      simp [linkTruthy, hl1]
    · simp only [lookupItem_setItem, if_neg h25, if_neg h24, if_pos rfl]
      simp [linkTruthy, hl2]
    · simp only [lookupItem_setItem, if_neg h45, if_pos rfl]
      simp [linkTruthy, hl4]
    · simp only [lookupItem_setItem, if_pos rfl]
      simp [linkTruthy, hl5]

/-- Witness: the isolation theorem at a concrete five-item window whose
third item's upload fails. -/
theorem partial_failure_isolated_witness :
    ∃ c', (uploadCmd .arweave
      (fun s => if s = "3" then .error "upload failed" else .ok ("L" ++ s))
      (.error "init") (fun _ => true) (fun _ => ⟨"n", "s", 0, [], "", []⟩) "w"
      ["1.png", "2.png", "3.png", "4.png", "5.png"] ⟨⟨some "u", none⟩, [], none⟩).1 =
        .ok (false, c') ∧
      ∀ f ∈ ["1.png", "2.png", "4.png", "5.png"],
        linkTruthy ((lookupItem c'.items (fileStem f)).bind (fun x => x.link)) = true :=
  partial_failure_isolated
    (fun s => if s = "3" then .error "upload failed" else .ok ("L" ++ s))
    (.error "init") (fun _ => true) (fun _ => ⟨"n", "s", 0, [], "", []⟩) "w"
    ["1.png", "2.png", "3.png", "4.png", "5.png"] ⟨⟨some "u", none⟩, [], none⟩
    "1.png" "2.png" "3.png" "4.png" "5.png" "u" "upload failed"
    (by decide) (by decide) rfl (by decide) rfl
    (by
      intro f hf
      rcases (by simpa using hf :
        f = "1.png" ∨ f = "2.png" ∨ f = "4.png" ∨ f = "5.png") with rfl | rfl | rfl | rfl
      · exact ⟨"L1", rfl, rfl⟩
      · exact ⟨"L2", rfl, rfl⟩
      · exact ⟨"L4", rfl, rfl⟩
      · exact ⟨"L5", rfl, rfl⟩)

end Metaplex
